import Mathlib

/-!
# Verification of the PERT/CPM scheduling engine

A shallow embedding of `apps/pert-chart/src/logic/pert.ts` (the scheduling
core: expected-duration formula, topological sort with cycle detection,
forward/backward CPM passes, slack/criticality, calendar projection),
together with theorems settling the specified behavioural properties.

Modelling conventions:
* JavaScript numbers are modelled by `ℚ` (exact arithmetic).
* A JavaScript `Map` is modelled by an association list `List (String × α)`
  with JS semantics: `set` on an existing key updates the entry in place
  (preserving insertion order), otherwise appends; `values()` is the list of
  second components in insertion order.
* A thrown runtime exception (e.g. dereferencing `undefined`) is modelled by
  `Option.none` in the result of the function that throws.
* The recursive DFS of `topologicalSort` is given explicit fuel so that it is
  structurally recursive; the fuel supplied is proved sufficient, so fuel
  exhaustion (`none` at the outer layer) is unreachable.
-/

/-- Unit for estimates, from the `timeUnit?: 'days' | 'hours'` field. -/
inductive TimeUnit where
  | days : TimeUnit
  | hours : TimeUnit
deriving DecidableEq, Repr

/-- The `PertTask` interface of `pert.ts`. -/
structure PertTask where
  id : String
  name : String
  optimistic : ℚ
  likely : ℚ
  pessimistic : ℚ
  dependencies : List String
  category : Option String := none
  startDate : Option String := none
  timeUnit : Option TimeUnit := none
deriving DecidableEq, Repr

/-- The `PertNode` interface of `pert.ts` (`extends PertTask`). -/
structure PertNode extends PertTask where
  duration : ℚ
  earlyStart : ℚ
  earlyFinish : ℚ
  lateStart : ℚ
  lateFinish : ℚ
  slack : ℚ
  isCritical : Bool
deriving DecidableEq, Repr

/-- JS `Map.get`: the value stored at `k`, if present. -/
def mapGet {α : Type} (m : List (String × α)) (k : String) : Option α :=
  (m.find? (fun p => p.1 = k)).map (fun p => p.2)

/-- JS `Map.set`: update in place when the key exists (insertion order is
preserved), otherwise append a new entry. -/
def mapSet {α : Type} (m : List (String × α)) (k : String) (v : α) :
    List (String × α) :=
  if m.any (fun p => p.1 = k) then
    m.map (fun p => if p.1 = k then (k, v) else p)
  else
    m ++ [(k, v)]

/-- `calculateExpectedTime` from `pert.ts`:
`(task.optimistic + 4 * task.likely + task.pessimistic) / 6`. -/
def calculateExpectedTime (task : PertTask) : ℚ :=
  (task.optimistic + 4 * task.likely + task.pessimistic) / 6

/-- The node initially stored in `nodeMap` for a task (`calculateCPM`,
first `forEach`): the task with `duration` computed and every schedule
field zeroed. -/
def initNode (task : PertTask) : PertNode :=
  { task with
    duration := calculateExpectedTime task
    earlyStart := 0
    earlyFinish := 0
    lateStart := 0
    lateFinish := 0
    slack := 0
    isCritical := false }

/-- The `nodeMap` of `calculateCPM` after the initial `forEach`. -/
def buildNodeMap (tasks : List PertTask) : List (String × PertNode) :=
  tasks.foldl (fun m t => mapSet m t.id (initNode t)) []

/-- The `successorsMap` of `calculateCPM`: every task id mapped to `[]`,
then for each task and each of its dependency ids that has an entry, the
task's id is appended to that entry (`if (succs) succs.push(task.id)`). -/
def buildSuccessorsMap (tasks : List PertTask) : List (String × List String) :=
  let m0 := tasks.foldl (fun m t => mapSet m t.id ([] : List String)) []
  tasks.foldl
    (fun m t =>
      t.dependencies.foldl
        (fun m2 depId =>
          match mapGet m2 depId with
          | some succs => mapSet m2 depId (succs ++ [t.id])
          | none => m2)
        m)
    m0

/-- The `taskMap` of `topologicalSort`: `new Map(tasks.map(t => [t.id, t]))`
(later duplicates overwrite earlier ones, position kept). -/
def buildTaskMap (tasks : List PertTask) : List (String × PertTask) :=
  tasks.foldl (fun m t => mapSet m t.id t) []

/-- The mutable state of `topologicalSort`'s DFS: the `visited` and `temp`
sets and the accumulating `order`. -/
structure TSState where
  visited : List String
  temp : List String
  order : List String
deriving DecidableEq, Repr

/-- One step of `topologicalSort`'s recursive `visit` function (argument
`Sum.inl taskId`), or the iteration of `visit` over a dependency list
(argument `Sum.inr deps`).  The two are merged into one function that is
structurally recursive on an explicit fuel argument.

Results: `none` = out of fuel (proved unreachable for the fuel used by
`topologicalSort`); `some none` = `visit` returned `false` (a cycle was
found); `some (some s)` = `visit` returned `true` with the updated state. -/
def visitFuel (taskMap : List (String × PertTask)) :
    Nat → (String ⊕ List String) → TSState → Option (Option TSState)
  | 0, _, _ => none
  | fuel + 1, Sum.inl taskId, s =>
    if taskId ∈ s.temp then some none
    else if taskId ∈ s.visited then some (some s)
    else
      let s1 : TSState := { s with temp := taskId :: s.temp }
      let afterDeps :=
        match mapGet taskMap taskId with
        | some task => visitFuel taskMap fuel (Sum.inr task.dependencies) s1
        | none => some (some s1)
      match afterDeps with
      | none => none
      | some none => some none
      | some (some s2) =>
        some (some { visited := taskId :: s2.visited,
                     temp := s2.temp.erase taskId,
                     order := s2.order ++ [taskId] })
  | _ + 1, Sum.inr [], s => some (some s)
  | fuel + 1, Sum.inr (d :: ds), s =>
    match visitFuel taskMap fuel (Sum.inl d) s with
    | none => none
    | some none => some none
    | some (some s1) => visitFuel taskMap fuel (Sum.inr ds) s1

/-- The fuel supplied to the DFS: one unit per task and per dependency edge
plus slack, proved to bound the depth of the call tree. -/
def sortFuel (tasks : List PertTask) : Nat :=
  tasks.foldl (fun a t => a + (t.dependencies.length + 2)) 0 + 2

/-- The top-level loop of `topologicalSort`: visit every task not yet
visited; a `false` return from `visit` makes the whole sort return `null`.
Returns `some (some order)` on success, `some none` for `null` (cycle), and
`none` on fuel exhaustion (unreachable). -/
def tsLoop (taskMap : List (String × PertTask)) (fuel : Nat) :
    List PertTask → TSState → Option (Option (List String))
  | [], s => some (some s.order)
  | t :: ts, s =>
    if t.id ∈ s.visited then tsLoop taskMap fuel ts s
    else
      match visitFuel taskMap fuel (Sum.inl t.id) s with
      | none => none
      | some none => some none
      | some (some s') => tsLoop taskMap fuel ts s'

/-- `topologicalSort` from `pert.ts`.  `some none` models the `null` return
(cycle detected); the outer `none` (fuel exhaustion) is proved unreachable. -/
def topologicalSort (tasks : List PertTask) : Option (Option (List String)) :=
  tsLoop (buildTaskMap tasks) (sortFuel tasks) tasks ⟨[], [], []⟩

/-- The `maxPredecessorEF` fold of the forward pass: over the task's
dependencies, taking `max` of the `earlyFinish` of each dependency that is
found in the node map, starting from `0`. -/
def maxPredecessorEF (m : List (String × PertNode)) (deps : List String) : ℚ :=
  deps.foldl
    (fun acc depId =>
      match mapGet m depId with
      | some depNode => max acc depNode.earlyFinish
      | none => acc)
    0

/-- The forward pass of `calculateCPM`: walk `sortedIds`, updating each
node's `earlyStart`/`earlyFinish`.  `nodeMap.get(id)!` on an id with no
entry is a JS `TypeError` (dereferencing `undefined`), modelled as `none`. -/
def forwardPass (ids : List String) (m : List (String × PertNode)) :
    Option (List (String × PertNode)) :=
  match ids with
  | [] => some m
  | id :: rest =>
    match mapGet m id with
    | none => none
    | some node =>
      let es := maxPredecessorEF m node.dependencies
      forwardPass rest
        (mapSet m id { node with earlyStart := es, earlyFinish := es + node.duration })

/-- `projectDuration`: fold of `max` of `earlyFinish` over the node map's
values, starting from `0`. -/
def projectDurationOf (m : List (String × PertNode)) : ℚ :=
  m.foldl (fun acc p => max acc p.2.earlyFinish) 0

/-- The `minSuccessorLS` fold of the backward pass: starting from
`Infinity` (the top of `WithTop ℚ`), take `min` of the `lateStart` of each
successor found in the node map. -/
def minSuccessorLS (m : List (String × PertNode)) (succs : List String) :
    WithTop ℚ :=
  succs.foldl
    (fun acc succId =>
      match mapGet m succId with
      | some succNode => min acc (succNode.lateStart : WithTop ℚ)
      | none => acc)
    ⊤

/-- The backward pass of `calculateCPM`, over the reversed sorted ids.
As in the forward pass, a missing node entry models a thrown `TypeError`.
`WithTop.untop' 0` extracts the numeric minimum; the `⊤` (Infinity) case
cannot occur because every pushed successor id is a task id present in the
node map. -/
def backwardPass (succMap : List (String × List String)) (projDur : ℚ) :
    List String → List (String × PertNode) → Option (List (String × PertNode))
  | [], m => some m
  | id :: rest, m =>
    match mapGet m id with
    | none => none
    | some node =>
      let successors := (mapGet succMap id).getD []
      let lf : ℚ :=
        if successors.isEmpty then projDur
        else (minSuccessorLS m successors).untop' 0
      let ls := lf - node.duration
      let slack := ls - node.earlyStart
      backwardPass succMap projDur rest
        (mapSet m id
          { node with
            lateFinish := lf
            lateStart := ls
            slack := slack
            isCritical := decide (|slack| < 1 / 100) })

/-- `calculateCPM` from `pert.ts`.  `none` models a thrown runtime
exception; `some nodes` is the returned `Array.from(nodeMap.values())`. -/
def calculateCPM (tasks : List PertTask) : Option (List PertNode) :=
  let nodeMap := buildNodeMap tasks
  let successorsMap := buildSuccessorsMap tasks
  match topologicalSort tasks with
  | none => none
  | some none => some (nodeMap.map (fun p => p.2))
  | some (some sortedIds) =>
    match forwardPass sortedIds nodeMap with
    | none => none
    | some m1 =>
      let projDur := projectDurationOf m1
      match backwardPass successorsMap projDur sortedIds.reverse m1 with
      | none => none
      | some m2 => some (m2.map (fun p => p.2))

/-- `createEmptyTask` deterministic part: the default field values (the
random id is abstracted as a parameter, `Math.random` being environmental). -/
def createEmptyTask (randomId : String) : PertTask :=
  { id := randomId
    name := "New Task"
    optimistic := 1
    likely := 2
    pessimistic := 4
    dependencies := [] }

/-- A Gregorian calendar date. -/
structure CivilDate where
  year : ℤ
  month : ℤ
  day : ℤ
deriving DecidableEq, Repr

/-- Day count since 1970-01-01 of a civil date (standard era-based civil
calendar arithmetic with floor division). -/
def daysFromCivil (c : CivilDate) : ℤ :=
  let y := if c.month ≤ 2 then c.year - 1 else c.year
  let era := Int.fdiv y 400
  let yoe := y - era * 400
  let mp := if 2 < c.month then c.month - 3 else c.month + 9
  let doy := Int.fdiv (153 * mp + 2) 5 + c.day - 1
  let doe := yoe * 365 + Int.fdiv yoe 4 - Int.fdiv yoe 100 + doy
  era * 146097 + doe - 719468

/-- Civil date of a day count since 1970-01-01 (inverse of `daysFromCivil`). -/
def civilFromDays (z0 : ℤ) : CivilDate :=
  let z := z0 + 719468
  let era := Int.fdiv z 146097
  let doe := z - era * 146097
  let yoe := Int.fdiv (doe - Int.fdiv doe 1460 + Int.fdiv doe 36524 - Int.fdiv doe 146096) 365
  let y := yoe + era * 400
  let doy := doe - (365 * yoe + Int.fdiv yoe 4 - Int.fdiv yoe 100)
  let mp := Int.fdiv (5 * doy + 2) 153
  let d := doy - Int.fdiv (153 * mp + 2) 5 + 1
  let m := if mp < 10 then mp + 3 else mp - 9
  { year := if m ≤ 2 then y + 1 else y, month := m, day := d }

/-- Whether a year is a Gregorian leap year. -/
def isLeapYear (y : ℤ) : Bool :=
  (y % 4 = 0 && y % 100 ≠ 0) || y % 400 = 0

/-- Number of days in a month. -/
def daysInMonth (y m : ℤ) : ℤ :=
  if m = 2 then (if isLeapYear y then 29 else 28)
  else if m = 4 || m = 6 || m = 9 || m = 11 then 30
  else 31

/-- Whether a string consists only of decimal digits. -/
def allDigits (s : String) : Bool :=
  s.toList.all (fun c => c.isDigit)

/-- Split a character list at every occurrence of a separator character
(`String.splitOn` for a one-character separator). -/
def splitChar (sep : Char) : List Char → List (List Char)
  | [] => [[]]
  | c :: cs =>
    let r := splitChar sep cs
    if c = sep then [] :: r
    else
      match r with
      | [] => [[c]]
      | h :: t => (c :: h) :: t

/-- Decimal value of a digit string. -/
def digitsToNat (l : List Char) : ℕ :=
  l.foldl (fun a c => a * 10 + (c.toNat - 48)) 0

/-- Model of `new Date(projectStartDate + 'T00:00:00')` for ISO
`YYYY-MM-DD` strings, returning the day count since 1970-01-01: the three
dash-separated components must be digit strings of width 4, 2, 2 denoting a
valid calendar date, otherwise the `Date` is invalid (`NaN` time value) and
the result is `none`.  (JS accepts some non-ISO formats as well; the spec
and callers only use ISO dates, so those are modelled as invalid.) -/
def parseISODate (s : String) : Option ℤ :=
  match splitChar '-' s.toList with
  | [ys, ms, ds] =>
    if (ys.all (fun c => c.isDigit) ∧ ms.all (fun c => c.isDigit)
          ∧ ds.all (fun c => c.isDigit))
        ∧ ys.length = 4 ∧ ms.length = 2 ∧ ds.length = 2 then
      let y : ℤ := (digitsToNat ys : ℕ)
      let m : ℤ := (digitsToNat ms : ℕ)
      let d : ℤ := (digitsToNat ds : ℕ)
      if 1 ≤ m ∧ m ≤ 12 ∧ 1 ≤ d ∧ d ≤ daysInMonth y m then
        some (daysFromCivil { year := y, month := m, day := d })
      else none
    else none
  | _ => none

/-- Left-pad the decimal representation of a natural number with zeros. -/
def padNat (width n : Nat) : String :=
  let r := toString n
  String.mk (List.replicate (width - r.length) '0') ++ r

/-- ISO `YYYY-MM-DD` rendering of a day count (the date part of
`Date.prototype.toISOString` for years 0–9999). -/
def formatISODate (z : ℤ) : String :=
  let c := civilFromDays z
  padNat 4 c.year.toNat ++ "-" ++ padNat 2 c.month.toNat ++ "-" ++ padNat 2 c.day.toNat

/-- JS `Math.round`: round half towards positive infinity. -/
def jsRound (q : ℚ) : ℤ := (q + 1 / 2).floor

/-- The `CalendarRange` interface of `pert.ts`. -/
structure CalendarRange where
  startDate : String
  endDate : String
deriving DecidableEq, Repr

/-- `computeCalendarDates` from `pert.ts`: map each node's id to the project
start date shifted by `Math.round(earlyStart)` / `Math.round(earlyFinish)`
days; an unparseable start date yields the empty map. -/
def computeCalendarDates (pertNodes : List PertNode) (projectStartDate : String) :
    List (String × CalendarRange) :=
  match parseISODate projectStartDate with
  | none => []
  | some base =>
    pertNodes.foldl
      (fun result node =>
        mapSet result node.id
          { startDate := formatISODate (base + jsRound node.earlyStart)
            endDate := formatISODate (base + jsRound node.earlyFinish) })
      []

/-- The dependency relation of the graph restricted to ids present in the
task list: `a` depends on `b` when the task stored at `a` in the task map
lists `b` among its dependencies and `b` is itself a key of the task map. -/
def DepEdge (tasks : List PertTask) (a b : String) : Prop :=
  (∃ t, mapGet (buildTaskMap tasks) a = some t ∧ b ∈ t.dependencies) ∧
    (∃ u, mapGet (buildTaskMap tasks) b = some u)

/-- The dependency graph restricted to present ids contains a cycle. -/
def HasCycle (tasks : List PertTask) : Prop :=
  ∃ v, Relation.TransGen (DepEdge tasks) v v

/-- Total weight of the task-map entries that are neither visited nor in
progress: an upper bound used to show the DFS fuel is sufficient. -/
def stateWeight (tm : List (String × PertTask)) (s : TSState) : ℕ :=
  ((tm.filter (fun p => decide (p.1 ∉ s.temp) && decide (p.1 ∉ s.visited))).map
    (fun p => p.2.dependencies.length + 2)).sum

/-- Helper to build a concrete task with the default optional fields. -/
def mkTask (id name : String) (o l p : ℚ) (deps : List String) : PertTask :=
  { id := id, name := name, optimistic := o, likely := l, pessimistic := p,
    dependencies := deps }

/-- Concrete cyclic input A→B→C→A. -/
def c1tasks : List PertTask :=
  [mkTask "A" "A" 1 1 1 ["B"], mkTask "B" "B" 1 1 1 ["C"], mkTask "C" "C" 1 1 1 ["A"]]

/-- Concrete input with a dangling dependency: task `A` depends on the
absent id `X`. -/
def c2tasks : List PertTask := [mkTask "A" "A" 1 1 1 ["X"]]

/-- Acyclic input with a dangling dependency (for the forward-pass claim). -/
def c3tasks : List PertTask := [mkTask "P" "P" 1 1 1 ["Q"]]

/-- Acyclic input with a dangling dependency (for the backward-pass claim). -/
def c4tasks : List PertTask := [mkTask "R" "R" 1 1 1 ["S"]]

/-- Acyclic two-task input where task `B` has negative estimates, hence a
negative expected duration. -/
def c6tasks : List PertTask :=
  [mkTask "A" "A" 2 2 2 [], mkTask "B" "B" (-1) (-1) (-1) ["A"]]

/-- A task with a negative and a zero estimate. -/
def c7task : PertTask := mkTask "N" "N" (-3) 0 2 []

/-- The node `calculateCPM` computes for `c7task`. -/
def c7node : PertNode :=
  { toPertTask := c7task
    duration := -1/6, earlyStart := 0, earlyFinish := -1/6
    lateStart := 1/6, lateFinish := 0, slack := 1/6, isCritical := false }

/-- A computed node with earlyStart 0 and earlyFinish 5. -/
def c8node : PertNode :=
  { toPertTask := mkTask "T" "T" 0 0 0 []
    duration := 0, earlyStart := 0, earlyFinish := 5
    lateStart := 0, lateFinish := 0, slack := 0, isCritical := false }

/-- Concrete cyclic input U→W→V→U with nontrivial estimates. -/
def c10tasks : List PertTask :=
  [mkTask "U" "U" 1 2 4 ["W"], mkTask "V" "V" 1 2 4 ["U"], mkTask "W" "W" 1 2 4 ["V"]]

/-- The four-task scenario of the specification (§8.7):
A(1,2,3), B(2,3,6) after A, C(1,2,4) after A, D(3,5,8) after B and C. -/
def cpmScenario : List PertTask :=
  [mkTask "A" "A" 1 2 3 [], mkTask "B" "B" 2 3 6 ["A"],
   mkTask "C" "C" 1 2 4 ["A"], mkTask "D" "D" 3 5 8 ["B", "C"]]

/-- The node `calculateCPM` computes for task A of `cpmScenario`. -/
def cpmA : PertNode :=
  { toPertTask := mkTask "A" "A" 1 2 3 []
    duration := 2, earlyStart := 0, earlyFinish := 2
    lateStart := 0, lateFinish := 2, slack := 0, isCritical := true }

/-- The node `calculateCPM` computes for task B of `cpmScenario`. -/
def cpmB : PertNode :=
  { toPertTask := mkTask "B" "B" 2 3 6 ["A"]
    duration := 10/3, earlyStart := 2, earlyFinish := 16/3
    lateStart := 2, lateFinish := 16/3, slack := 0, isCritical := true }

/-- The node `calculateCPM` computes for task C of `cpmScenario`. -/
def cpmC : PertNode :=
  { toPertTask := mkTask "C" "C" 1 2 4 ["A"]
    duration := 13/6, earlyStart := 2, earlyFinish := 25/6
    lateStart := 19/6, lateFinish := 16/3, slack := 7/6, isCritical := false }

/-- The node `calculateCPM` computes for task D of `cpmScenario`. -/
def cpmD : PertNode :=
  { toPertTask := mkTask "D" "D" 3 5 8 ["B", "C"]
    duration := 31/6, earlyStart := 16/3, earlyFinish := 21/2
    lateStart := 16/3, lateFinish := 21/2, slack := 0, isCritical := true }

/-- The full output of `calculateCPM` on `cpmScenario`. -/
def cpmOut : List PertNode := [cpmA, cpmB, cpmC, cpmD]

unseal Rat.add Rat.mul Rat.inv Rat.sub Rat.ofScientific

/-! ## Association map lemmas -/

theorem mapGet_mapSet_self {α : Type} (m : List (String × α)) (k : String) (v : α) :
    mapGet (mapSet m k v) k = some v := by
  unfold mapSet
  split
  · next hany =>
    induction m with
    | nil => simp at hany
    | cons p m ih =>
      by_cases hp : p.1 = k
      · simp [mapGet, List.find?, hp]
      · simp only [List.any_cons] at hany
        rcases Bool.or_eq_true_iff.mp hany with h | h
        · exact absurd (by simpa using h) hp
        · simpa [mapGet, List.find?, hp] using ih h
  · next hany =>
    induction m with
    | nil => simp [mapGet]
    | cons p m ih =>
      simp only [List.any_cons, Bool.or_eq_true_iff, not_or] at hany
      have hp : ¬ p.1 = k := by simpa using hany.1
      simpa [mapGet, List.find?, hp] using ih hany.2

theorem find?_map_replace {α : Type} (m : List (String × α)) (k k' : String) (v : α)
    (h : k' ≠ k) :
    (m.map (fun p => if p.1 = k then (k, v) else p)).find? (fun p => p.1 = k') =
      m.find? (fun p => p.1 = k') := by
  induction m with
  | nil => rfl
  | cons p m ih =>
    by_cases hp : p.1 = k
    · have h1 : ¬ ((k : String) = k') := Ne.symm h
      have h2 : ¬ (p.1 = k') := by rw [hp]; exact Ne.symm h
      simp only [List.map_cons, if_pos hp, List.find?]
      simp [h1, h2, ih]
    · simp only [List.map_cons, if_neg hp, List.find?]
      by_cases hp' : p.1 = k'
      · simp [hp']
      · simp [hp', ih]

theorem mapGet_mapSet_ne {α : Type} (m : List (String × α)) (k k' : String) (v : α)
    (h : k' ≠ k) : mapGet (mapSet m k v) k' = mapGet m k' := by
  unfold mapGet mapSet
  split
  · rw [find?_map_replace m k k' v h]
  · rw [List.find?_append]
    have : List.find? (fun p => p.1 = k') [(k, v)] = none := by
      simp [List.find?, Ne.symm h]
    rw [this, Option.or_none]

theorem mem_mapSet {α : Type} {m : List (String × α)} {k : String} {v : α}
    {p : String × α} (h : p ∈ mapSet m k v) : p ∈ m ∨ p = (k, v) := by
  unfold mapSet at h
  split at h
  · rcases List.mem_map.mp h with ⟨q, hq, hqe⟩
    by_cases hk : q.1 = k
    · right
      rw [if_pos hk] at hqe
      exact hqe.symm
    · left
      rw [if_neg hk] at hqe
      exact hqe ▸ hq
  · rcases List.mem_append.mp h with h | h
    · exact Or.inl h
    · right
      simpa using h

theorem isSome_mapGet_mapSet {α : Type} (m : List (String × α)) (k id : String) (v : α) :
    (mapGet (mapSet m k v) id).isSome ↔ id = k ∨ (mapGet m id).isSome := by
  by_cases h : id = k
  · subst h
    simp [mapGet_mapSet_self]
  · rw [mapGet_mapSet_ne m k id v h]
    simp [h]

theorem foldBuild_get_of_notmem {α β : Type} (key : β → String) (f : β → α)
    (items : List β) (m0 : List (String × α)) (id : String)
    (h : ∀ t ∈ items, key t ≠ id) :
    mapGet (items.foldl (fun m t => mapSet m (key t) (f t)) m0) id = mapGet m0 id := by
  induction items generalizing m0 with
  | nil => rfl
  | cons t ts ih =>
    simp only [List.foldl_cons]
    rw [ih _ (fun u hu => h u (List.mem_cons_of_mem _ hu))]
    exact mapGet_mapSet_ne m0 (key t) id (f t)
      (fun he => h t (List.mem_cons_self _ _) he.symm)

theorem foldBuild_get_of_mem_nodup {α β : Type} (key : β → String) (f : β → α)
    (items : List β) (m0 : List (String × α)) (hnd : (items.map key).Nodup)
    (t : β) (ht : t ∈ items) :
    mapGet (items.foldl (fun m u => mapSet m (key u) (f u)) m0) (key t) = some (f t) := by
  induction items generalizing m0 with
  | nil => cases ht
  | cons t0 ts ih =>
    simp only [List.map_cons, List.nodup_cons] at hnd
    rcases List.mem_cons.mp ht with rfl | hts
    · simp only [List.foldl_cons]
      rw [foldBuild_get_of_notmem key f ts _ (key t)
        (fun u hu he => hnd.1 (he ▸ List.mem_map_of_mem key hu))]
      exact mapGet_mapSet_self m0 (key t) (f t)
    · exact ih _ hnd.2 hts

theorem foldBuild_get_isSome {α β : Type} (key : β → String) (f : β → α)
    (items : List β) (m0 : List (String × α)) (id : String) :
    (mapGet (items.foldl (fun m t => mapSet m (key t) (f t)) m0) id).isSome ↔
      (∃ t ∈ items, key t = id) ∨ (mapGet m0 id).isSome := by
  induction items generalizing m0 with
  | nil => simp
  | cons t ts ih =>
    simp only [List.foldl_cons]
    rw [ih]
    rw [isSome_mapGet_mapSet]
    constructor
    · rintro (⟨u, hu, he⟩ | h | h)
      · exact Or.inl ⟨u, List.mem_cons_of_mem _ hu, he⟩
      · exact Or.inl ⟨t, List.mem_cons_self _ _, h.symm⟩
      · exact Or.inr h
    · rintro (⟨u, hu, he⟩ | h)
      · rcases List.mem_cons.mp hu with rfl | hu
        · exact Or.inr (Or.inl he.symm)
        · exact Or.inl ⟨u, hu, he⟩
      · exact Or.inr (Or.inr h)

theorem foldBuild_mem_values {α β : Type} (key : β → String) (f : β → α)
    (items : List β) (m0 : List (String × α)) (p : String × α)
    (hp : p ∈ items.foldl (fun m t => mapSet m (key t) (f t)) m0) :
    p ∈ m0 ∨ ∃ t ∈ items, p = (key t, f t) := by
  induction items generalizing m0 with
  | nil => exact Or.inl hp
  | cons t ts ih =>
    rcases ih _ hp with h | ⟨u, hu, he⟩
    · rcases mem_mapSet h with h | h
      · exact Or.inl h
      · exact Or.inr ⟨t, List.mem_cons_self _ _, h⟩
    · exact Or.inr ⟨u, List.mem_cons_of_mem _ hu, he⟩

/-- The ids pushed onto `successorsMap.get id` by the successor-building
loop over `tasks`: one copy of `t.id` per occurrence of `id` in
`t.dependencies`, in task order. -/
def succContrib (id : String) (tasks : List PertTask) : List String :=
  tasks.flatMap (fun t => (t.dependencies.filter (fun d => d = id)).map (fun _ => t.id))

theorem succInner_get (tid : String) (ds : List String) (m : List (String × List String))
    (id : String) :
    mapGet (ds.foldl
      (fun m2 depId =>
        match mapGet m2 depId with
        | some succs => mapSet m2 depId (succs ++ [tid])
        | none => m2) m) id
      = (mapGet m id).map (fun l => l ++ (ds.filter (fun d => d = id)).map (fun _ => tid)) := by
  induction ds generalizing m with
  | nil =>
    cases hm : mapGet m id <;> simp [hm]
  | cons d ds ih =>
    simp only [List.foldl_cons]
    rw [ih]
    by_cases hd : d = id
    · subst hd
      cases hm : mapGet m d with
      | none => simp [hm]
      | some succs =>
        dsimp only
        rw [mapGet_mapSet_self]
        simp [List.filter_cons, List.append_assoc]
    · cases hm : mapGet m d with
      | none =>
        dsimp only
        cases hm2 : mapGet m id <;> simp [hm2, List.filter_cons, hd]
      | some succs =>
        dsimp only
        rw [mapGet_mapSet_ne m d id (succs ++ [tid]) (Ne.symm hd)]
        cases hm2 : mapGet m id <;> simp [hm2, List.filter_cons, hd]

theorem succOuter_get (tasks' : List PertTask) (m : List (String × List String))
    (id : String) :
    mapGet (tasks'.foldl
      (fun m t =>
        t.dependencies.foldl
          (fun m2 depId =>
            match mapGet m2 depId with
            | some succs => mapSet m2 depId (succs ++ [t.id])
            | none => m2) m) m) id
      = (mapGet m id).map (fun l => l ++ succContrib id tasks') := by
  induction tasks' generalizing m with
  | nil =>
    cases hm : mapGet m id <;> simp [hm, succContrib]
  | cons t ts ih =>
    simp only [List.foldl_cons]
    rw [ih, succInner_get]
    cases hm : mapGet m id <;> simp [hm, succContrib]

theorem mapGet_eq_some_mem {α : Type} {m : List (String × α)} {k : String} {v : α}
    (h : mapGet m k = some v) : (k, v) ∈ m := by
  unfold mapGet at h
  cases hf : m.find? (fun p => p.1 = k) with
  | none => rw [hf] at h; cases h
  | some p =>
    rw [hf] at h
    have hp : p.1 = k := by
      have := List.find?_some hf
      simpa using this
    have hm := List.mem_of_find?_eq_some hf
    have hv : p.2 = v := by simpa using h
    have : p = (k, v) := Prod.ext hp hv
    exact this ▸ hm

theorem mapGet_m0_some (tasks : List PertTask) (id : String) (v : List String)
    (h : mapGet (tasks.foldl (fun m t => mapSet m t.id ([] : List String)) []) id = some v) :
    v = [] := by
  have hmem := mapGet_eq_some_mem h
  rcases foldBuild_mem_values PertTask.id (fun _ => ([] : List String)) tasks [] _ hmem with h0 | ⟨t, _, he⟩
  · cases h0
  · exact congrArg Prod.snd he

theorem buildSuccessorsMap_get_present (tasks : List PertTask) (id : String)
    (h : ∃ t ∈ tasks, t.id = id) :
    mapGet (buildSuccessorsMap tasks) id = some (succContrib id tasks) := by
  unfold buildSuccessorsMap
  rw [succOuter_get]
  have hsome : (mapGet (tasks.foldl (fun m t => mapSet m t.id ([] : List String)) []) id).isSome := by
    rw [foldBuild_get_isSome PertTask.id]
    exact Or.inl h
  cases hm : mapGet (tasks.foldl (fun m t => mapSet m t.id ([] : List String)) []) id with
  | none => rw [hm] at hsome; cases hsome
  | some v =>
    have := mapGet_m0_some tasks id v hm
    subst this
    simp

theorem buildSuccessorsMap_get_absent (tasks : List PertTask) (id : String)
    (h : ¬ ∃ t ∈ tasks, t.id = id) :
    mapGet (buildSuccessorsMap tasks) id = none := by
  unfold buildSuccessorsMap
  rw [succOuter_get]
  have : ¬ (mapGet (tasks.foldl (fun m t => mapSet m t.id ([] : List String)) []) id).isSome := by
    rw [foldBuild_get_isSome PertTask.id]
    refine not_or.mpr ⟨h, ?_⟩
    simp [mapGet]
  cases hm : mapGet (tasks.foldl (fun m t => mapSet m t.id ([] : List String)) []) id with
  | none => rfl
  | some v => rw [hm] at this; simp at this

theorem mem_succContrib {x id : String} {tasks : List PertTask} :
    x ∈ succContrib id tasks ↔ ∃ t ∈ tasks, t.id = x ∧ id ∈ t.dependencies := by
  unfold succContrib
  rw [List.mem_flatMap]
  constructor
  · rintro ⟨t, ht, hx⟩
    rcases List.mem_map.mp hx with ⟨d, hd, he⟩
    rcases List.mem_filter.mp hd with ⟨hdm, hdec⟩
    refine ⟨t, ht, he, ?_⟩
    have : d = id := by simpa using hdec
    exact this ▸ hdm
  · rintro ⟨t, ht, hx, hdep⟩
    refine ⟨t, ht, List.mem_map.mpr ⟨id, List.mem_filter.mpr ⟨hdep, by simp⟩, hx⟩⟩

/-! ## Calendar projection claims -/

/-- C8: for every node list with distinct ids and a parseable project start
date, the calendar projection maps each node's id to
`startDate = start + round(earlyStart)` days and
`endDate = start + round(earlyFinish)` days, every calendar day counting
(no weekend skipping is modelled anywhere in the arithmetic). -/
theorem C8_calendar_projection (pertNodes : List PertNode) (s : String) (base : ℤ)
    (hparse : parseISODate s = some base)
    (hnd : (pertNodes.map (fun n => n.id)).Nodup)
    (n : PertNode) (hn : n ∈ pertNodes) :
    mapGet (computeCalendarDates pertNodes s) n.id =
      some { startDate := formatISODate (base + jsRound n.earlyStart)
             endDate := formatISODate (base + jsRound n.earlyFinish) } := by
  unfold computeCalendarDates
  rw [hparse]
  dsimp only
  exact foldBuild_get_of_mem_nodup (fun n : PertNode => n.id)
    (fun node => ({ startDate := formatISODate (base + jsRound node.earlyStart)
                    endDate := formatISODate (base + jsRound node.earlyFinish) } : CalendarRange))
    pertNodes [] hnd n hn

/-- Witness for C8: with start date 2026-01-01 and a node with
earlyStart 0 and earlyFinish 5, the projected range is
2026-01-01 to 2026-01-06. -/
theorem C8_calendar_projection_witness :
    parseISODate "2026-01-01" = some 20454 ∧
      mapGet (computeCalendarDates [c8node] "2026-01-01") "T" =
        some { startDate := "2026-01-01", endDate := "2026-01-06" } := by
  constructor
  · decide
  · have h := C8_calendar_projection [c8node] "2026-01-01" 20454 (by decide) (by decide)
      c8node (by simp)
    have h1 : formatISODate (20454 + jsRound c8node.earlyStart) = "2026-01-01" := by decide
    have h2 : formatISODate (20454 + jsRound c8node.earlyFinish) = "2026-01-06" := by decide
    rw [h1, h2] at h
    exact h

/-- C9: an unparseable start date makes the calendar projection return the
empty map (and, the projection being a pure function, the nodes are
unaffected and nothing is thrown). -/
theorem C9_invalid_start_date (pertNodes : List PertNode) (s : String)
    (h : parseISODate s = none) :
    computeCalendarDates pertNodes s = [] := by
  unfold computeCalendarDates
  rw [h]

/-- Witness for C9 at a concrete garbage start date. -/
theorem C9_invalid_start_date_witness :
    parseISODate "definitely-not-a-date" = none ∧
      computeCalendarDates [c8node] "definitely-not-a-date" = [] :=
  ⟨by decide, C9_invalid_start_date [c8node] "definitely-not-a-date" (by decide)⟩

/-! ## Dangling dependency claims -/

/-- C2 (failing input): on the single task `A` with dangling dependency
`X`, `topologicalSort` pushes the missing id `X` into the returned order,
and the forward pass of `calculateCPM` then dereferences the absent node
map entry for `X` — a thrown `TypeError`, modelled as `none`.  The claimed
tolerant behaviour (computing as though the dependency did not exist) does
not occur. -/
theorem C2_dangling_crash :
    topologicalSort c2tasks = some (some ["X", "A"]) ∧ calculateCPM c2tasks = none := by
  constructor
  · decide
  · decide

/-! ## DFS state-growth lemma -/

theorem visitFuel_growth (tm : List (String × PertTask)) :
    ∀ (fuel : Nat) (x : String ⊕ List String) (s s' : TSState),
      visitFuel tm fuel x s = some (some s') →
      s'.temp = s.temp ∧
      ∃ new : List String,
        s'.order = s.order ++ new ∧
        (∀ v ∈ new, v ∉ s.temp) ∧
        (∀ v, v ∈ s'.visited ↔ v ∈ s.visited ∨ v ∈ new) := by
  intro fuel
  induction fuel with
  | zero =>
    intro x s s' h
    simp [visitFuel] at h
  | succ fuel ih =>
    rintro (taskId | ds) s s' h
    · rw [visitFuel] at h
      by_cases h1 : taskId ∈ s.temp
      · simp [h1] at h
      · by_cases h2 : taskId ∈ s.visited
        · simp only [if_neg h1, if_pos h2, Option.some.injEq] at h
          subst h
          exact ⟨rfl, [], by simp⟩
        · simp only [if_neg h1, if_neg h2] at h
          cases hget : mapGet tm taskId with
          | none =>
            rw [hget] at h
            dsimp only at h
            simp only [Option.some.injEq] at h
            subst h
            refine ⟨List.erase_cons_head taskId s.temp, [taskId], rfl, ?_, ?_⟩
            · simpa using h1
            · intro v; simp [or_comm]
          | some task =>
            rw [hget] at h
            dsimp only at h
            cases hrec : visitFuel tm fuel (Sum.inr task.dependencies)
                { s with temp := taskId :: s.temp } with
            | none => rw [hrec] at h; cases h
            | some r =>
              cases r with
              | none => rw [hrec] at h; cases h
              | some s2 =>
                rw [hrec] at h
                simp only [Option.some.injEq] at h
                subst h
                obtain ⟨htemp, new2, horder, hnotin, hvis⟩ := ih _ _ _ hrec
                have htemp2 : s2.temp = taskId :: s.temp := htemp
                constructor
                · simp only [htemp2]
                  exact List.erase_cons_head taskId s.temp
                · refine ⟨new2 ++ [taskId], ?_, ?_, ?_⟩
                  · simp only [horder]
                    simp [List.append_assoc]
                  · intro v hv
                    rcases List.mem_append.mp hv with hv | hv
                    · have := hnotin v hv
                      simp only [htemp2] at this
                      intro hc
                      exact this (List.mem_cons_of_mem _ hc)
                    · have : v = taskId := by simpa using hv
                      exact this ▸ h1
                  · intro v
                    simp only [List.mem_cons, hvis v, List.mem_append,
                      List.mem_singleton]
                    tauto
    · cases ds with
      | nil =>
        rw [visitFuel] at h
        simp only [Option.some.injEq] at h
        subst h
        exact ⟨rfl, [], by simp⟩
      | cons d ds =>
        rw [visitFuel] at h
        cases hrec1 : visitFuel tm fuel (Sum.inl d) s with
        | none => rw [hrec1] at h; cases h
        | some r =>
          cases r with
          | none => rw [hrec1] at h; cases h
          | some s1 =>
            rw [hrec1] at h
            obtain ⟨htemp1, new1, horder1, hnotin1, hvis1⟩ := ih _ _ _ hrec1
            obtain ⟨htemp2, new2, horder2, hnotin2, hvis2⟩ := ih _ _ _ h
            refine ⟨htemp2.trans htemp1, new1 ++ new2, ?_, ?_, ?_⟩
            · rw [horder2, horder1, List.append_assoc]
            · intro v hv
              rcases List.mem_append.mp hv with hv | hv
              · exact hnotin1 v hv
              · exact htemp1 ▸ hnotin2 v hv
            · intro v
              rw [hvis2 v, hvis1 v, List.mem_append]
              tauto

theorem visit_inl_visited (tm : List (String × PertTask)) (fuel : Nat) (taskId : String)
    (s s' : TSState) (h : visitFuel tm fuel (Sum.inl taskId) s = some (some s')) :
    taskId ∈ s'.visited := by
  cases fuel with
  | zero => simp [visitFuel] at h
  | succ fuel =>
    rw [visitFuel] at h
    by_cases h1 : taskId ∈ s.temp
    · simp [h1] at h
    · by_cases h2 : taskId ∈ s.visited
      · simp only [if_neg h1, if_pos h2, Option.some.injEq] at h
        exact h ▸ h2
      · simp only [if_neg h1, if_neg h2] at h
        cases hget : mapGet tm taskId with
        | none =>
          rw [hget] at h
          dsimp only at h
          simp only [Option.some.injEq] at h
          subst h
          exact List.mem_cons_self _ _
        | some task =>
          rw [hget] at h
          dsimp only at h
          cases hrec : visitFuel tm fuel (Sum.inr task.dependencies)
              { s with temp := taskId :: s.temp } with
          | none => rw [hrec] at h; cases h
          | some r =>
            cases r with
            | none => rw [hrec] at h; cases h
            | some s2 =>
              rw [hrec] at h
              simp only [Option.some.injEq] at h
              subst h
              exact List.mem_cons_self _ _

theorem visitList_deps_visited (tm : List (String × PertTask)) :
    ∀ (fuel : Nat) (ds : List String) (s s' : TSState),
      visitFuel tm fuel (Sum.inr ds) s = some (some s') →
      ∀ d ∈ ds, d ∈ s'.visited := by
  intro fuel
  induction fuel with
  | zero =>
    intro ds s s' h
    simp [visitFuel] at h
  | succ fuel ih =>
    intro ds s s' h
    cases ds with
    | nil => intro d hd; cases hd
    | cons d0 ds =>
      rw [visitFuel] at h
      cases hrec1 : visitFuel tm fuel (Sum.inl d0) s with
      | none => rw [hrec1] at h; cases h
      | some r =>
        cases r with
        | none => rw [hrec1] at h; cases h
        | some s1 =>
          rw [hrec1] at h
          intro d hd
          rcases List.mem_cons.mp hd with rfl | hd
          · have hd1 := visit_inl_visited tm fuel d s s1 hrec1
            obtain ⟨_, new, _, _, hvis⟩ := visitFuel_growth tm fuel _ _ _ h
            exact (hvis d).mpr (Or.inl hd1)
          · exact ih ds s1 s' h d hd

theorem append_singleton_cases {α : Type} {l l1 l2 : List α} {x v : α}
    (h : l ++ [x] = l1 ++ v :: l2) :
    (l1 = l ∧ v = x ∧ l2 = []) ∨ ∃ l2', l2 = l2' ++ [x] ∧ l = l1 ++ v :: l2' := by
  rcases List.eq_nil_or_concat l2 with rfl | ⟨l2', a, rfl⟩
  · left
    have hlen : l.length = l1.length := by
      have := congrArg List.length h
      simp at this
      omega
    obtain ⟨he1, he2⟩ := List.append_inj h hlen
    have : v = x := by simpa using he2.symm
    exact ⟨he1.symm, this, rfl⟩
  · right
    have hconcat : l2'.concat a = l2' ++ [a] := List.concat_eq_append l2' a
    have h' : l ++ [x] = (l1 ++ v :: l2') ++ [a] := by
      rw [h, hconcat]
      simp
    have hlen : l.length = (l1 ++ v :: l2').length := by
      have := congrArg List.length h'
      simp only [List.length_append, List.length_cons, List.length_singleton] at this ⊢
      omega
    obtain ⟨he1, he2⟩ := List.append_inj h' hlen
    have hxa : x = a := by simpa using he2
    refine ⟨l2', ?_, he1⟩
    rw [hxa]
    exact hconcat

theorem visitFuel_inv (tm : List (String × PertTask)) :
    ∀ (fuel : Nat) (x : String ⊕ List String) (s s' : TSState),
      visitFuel tm fuel x s = some (some s') →
      (∀ v, v ∈ s.visited ↔ v ∈ s.order) →
      s.order.Nodup →
      (∀ l1 v l2 task, s.order = l1 ++ v :: l2 → mapGet tm v = some task →
        ∀ d ∈ task.dependencies, d ∈ l1) →
      (∀ v, v ∈ s'.visited ↔ v ∈ s'.order) ∧ s'.order.Nodup ∧
        (∀ l1 v l2 task, s'.order = l1 ++ v :: l2 → mapGet tm v = some task →
          ∀ d ∈ task.dependencies, d ∈ l1) := by
  intro fuel
  induction fuel with
  | zero =>
    intro x s s' h
    simp [visitFuel] at h
  | succ fuel ih =>
    rintro (taskId | ds) s s' h hsync hnodup hord
    · rw [visitFuel] at h
      by_cases h1 : taskId ∈ s.temp
      · simp [h1] at h
      · by_cases h2 : taskId ∈ s.visited
        · simp only [if_neg h1, if_pos h2, Option.some.injEq] at h
          subst h
          exact ⟨hsync, hnodup, hord⟩
        · simp only [if_neg h1, if_neg h2] at h
          cases hget : mapGet tm taskId with
          | none =>
            rw [hget] at h
            dsimp only at h
            simp only [Option.some.injEq] at h
            subst h
            have hno : taskId ∉ s.order := fun hc => h2 ((hsync taskId).mpr hc)
            refine ⟨?_, ?_, ?_⟩
            · intro v
              simp only [List.mem_cons, List.mem_append, List.mem_singleton, hsync v]
              tauto
            · simp [List.nodup_append, hnodup, hno]
            · intro l1 v l2 task' hdecomp hget' d hd
              dsimp only at hdecomp
              rcases append_singleton_cases hdecomp with ⟨hl1, hv, hl2⟩ | ⟨l2'', hl2, hrest⟩
              · subst hv
                rw [hget'] at hget
                cases hget
              · exact hord l1 v l2'' task' hrest hget' d hd
          | some task =>
            rw [hget] at h
            dsimp only at h
            cases hrec : visitFuel tm fuel (Sum.inr task.dependencies)
                { s with temp := taskId :: s.temp } with
            | none => rw [hrec] at h; cases h
            | some r =>
              cases r with
              | none => rw [hrec] at h; cases h
              | some s2 =>
                rw [hrec] at h
                simp only [Option.some.injEq] at h
                subst h
                obtain ⟨hsync2, hnodup2, hord2⟩ := ih _ _ _ hrec hsync hnodup hord
                obtain ⟨htemp2, new2, horder2, hnotin2, hvis2⟩ :=
                  visitFuel_growth tm fuel _ _ _ hrec
                have hno : taskId ∉ s2.order := by
                  intro hc
                  have hv2 : taskId ∈ s2.visited := (hsync2 taskId).mpr hc
                  rcases (hvis2 taskId).mp hv2 with hc2 | hc2
                  · exact h2 hc2
                  · exact hnotin2 taskId hc2 (List.mem_cons_self _ _)
                refine ⟨?_, ?_, ?_⟩
                · intro v
                  simp only [List.mem_cons, List.mem_append, List.mem_singleton, hsync2 v]
                  tauto
                · simp [List.nodup_append, hnodup2, hno]
                · intro l1 v l2 task' hdecomp hget' d hd
                  dsimp only at hdecomp
                  rcases append_singleton_cases hdecomp with
                    ⟨hl1, hv, hl2⟩ | ⟨l2'', hl2, hrest⟩
                  · subst hv
                    rw [hget] at hget'
                    cases hget'
                    subst hl1
                    have hdv := visitList_deps_visited tm fuel _ _ _ hrec d hd
                    exact (hsync2 d).mp hdv
                  · exact hord2 l1 v l2'' task' hrest hget' d hd
    · cases ds with
      | nil =>
        rw [visitFuel] at h
        simp only [Option.some.injEq] at h
        subst h
        exact ⟨hsync, hnodup, hord⟩
      | cons d ds =>
        rw [visitFuel] at h
        cases hrec1 : visitFuel tm fuel (Sum.inl d) s with
        | none => rw [hrec1] at h; cases h
        | some r =>
          cases r with
          | none => rw [hrec1] at h; cases h
          | some s1 =>
            rw [hrec1] at h
            obtain ⟨hsync1, hnodup1, hord1⟩ := ih _ _ _ hrec1 hsync hnodup hord
            exact ih _ _ _ h hsync1 hnodup1 hord1

theorem filter_sum_le {α : Type} (w : α → ℕ) (p q : α → Bool) :
    ∀ l : List α, (∀ a ∈ l, q a = true → p a = true) →
      ((l.filter q).map w).sum ≤ ((l.filter p).map w).sum := by
  intro l himp
  induction l with
  | nil => simp
  | cons a l ih =>
    have ih' := ih (fun b hb => himp b (List.mem_cons_of_mem _ hb))
    by_cases hq : q a = true
    · have hp := himp a (List.mem_cons_self _ _) hq
      simpa [List.filter_cons, hq, hp] using Nat.add_le_add_left ih' (w a)
    · simp only [List.filter_cons, Bool.not_eq_true] at hq ⊢
      rw [hq]
      cases hp : p a with
      | false => simpa using ih'
      | true =>
        simp only [if_true, if_false, List.map_cons, List.sum_cons]
        exact le_trans ih' (Nat.le_add_left _ _)

theorem stateWeight_mono (tm : List (String × PertTask)) {fuel : Nat}
    {x : String ⊕ List String} {s s' : TSState}
    (h : visitFuel tm fuel x s = some (some s')) :
    stateWeight tm s' ≤ stateWeight tm s := by
  obtain ⟨htemp, new, _, _, hvis⟩ := visitFuel_growth tm fuel x s s' h
  apply filter_sum_le
  intro a _ hq
  simp only [Bool.and_eq_true, decide_eq_true_eq] at hq ⊢
  refine ⟨htemp ▸ hq.1, fun hc => hq.2 ((hvis a.1).mpr (Or.inl hc))⟩

theorem stateWeight_temp_insert (tm : List (String × PertTask)) (s : TSState)
    (taskId : String) (task : PertTask)
    (hget : mapGet tm taskId = some task) (h1 : taskId ∉ s.temp)
    (h2 : taskId ∉ s.visited) :
    stateWeight tm { s with temp := taskId :: s.temp } +
      (task.dependencies.length + 2) ≤ stateWeight tm s := by
  have key : ∀ tm0 : List (String × PertTask), mapGet tm0 taskId = some task →
      ((tm0.filter (fun q => decide (q.1 ∉ taskId :: s.temp) && decide (q.1 ∉ s.visited))).map
        (fun q => q.2.dependencies.length + 2)).sum + (task.dependencies.length + 2) ≤
      ((tm0.filter (fun q => decide (q.1 ∉ s.temp) && decide (q.1 ∉ s.visited))).map
        (fun q => q.2.dependencies.length + 2)).sum := by
    intro tm0 hget0
    induction tm0 with
    | nil => cases hget0
    | cons p tm' ih =>
      by_cases hp : p.1 = taskId
      · have hval : p.2 = task := by
          unfold mapGet at hget0
          rw [List.find?_cons_of_pos _ (by simpa using hp)] at hget0
          simpa using hget0
        have hc1 : (decide (p.1 ∉ taskId :: s.temp) && decide (p.1 ∉ s.visited)) = false := by
          simp [hp]
        have hc2 : (decide (p.1 ∉ s.temp) && decide (p.1 ∉ s.visited)) = true := by
          simp [hp, h1, h2]
        have hle := filter_sum_le (fun q : String × PertTask => q.2.dependencies.length + 2)
          (fun q => decide (q.1 ∉ s.temp) && decide (q.1 ∉ s.visited))
          (fun q => decide (q.1 ∉ taskId :: s.temp) && decide (q.1 ∉ s.visited)) tm'
          (fun a _ hq => by
            simp only [Bool.and_eq_true, decide_eq_true_eq, List.mem_cons, not_or] at hq ⊢
            exact ⟨hq.1.2, hq.2⟩)
        rw [List.filter_cons, List.filter_cons, hc1, hc2]
        simp only [if_false, if_true, List.map_cons, List.sum_cons, Bool.false_eq_true]
        rw [hval]
        omega
      · have hget' : mapGet tm' taskId = some task := by
          unfold mapGet at hget0 ⊢
          rw [List.find?_cons_of_neg _ (by simpa using hp)] at hget0
          exact hget0
        have ihr := ih hget'
        have hsame : (decide (p.1 ∉ taskId :: s.temp) && decide (p.1 ∉ s.visited)) =
            (decide (p.1 ∉ s.temp) && decide (p.1 ∉ s.visited)) := by
          simp only [List.mem_cons, not_or]
          by_cases ht : p.1 ∈ s.temp
          · simp [ht]
          · by_cases hv : p.1 ∈ s.visited
            · simp [ht, hv]
            · simp [ht, hv, hp]
        rw [List.filter_cons, List.filter_cons, hsame]
        cases hc : (decide (p.1 ∉ s.temp) && decide (p.1 ∉ s.visited)) with
        | false =>
          simpa [Bool.false_eq_true] using ihr
        | true =>
          simp only [if_true, List.map_cons, List.sum_cons]
          omega
  have hkey := key tm hget
  unfold stateWeight
  dsimp only
  exact hkey

theorem visitFuel_sufficient (tm : List (String × PertTask)) :
    ∀ (fuel : Nat) (x : String ⊕ List String) (s : TSState),
      (match x with
       | Sum.inl _ => stateWeight tm s < fuel
       | Sum.inr ds => stateWeight tm s + ds.length < fuel) →
      visitFuel tm fuel x s ≠ none := by
  intro fuel
  induction fuel with
  | zero =>
    rintro (taskId | ds) s hb
    · exact absurd hb (by omega)
    · exact absurd hb (by omega)
  | succ fuel ih =>
    rintro (taskId | ds) s hb
    · rw [visitFuel]
      by_cases h1 : taskId ∈ s.temp
      · simp [h1]
      · by_cases h2 : taskId ∈ s.visited
        · simp [h1, h2]
        · simp only [if_neg h1, if_neg h2]
          cases hget : mapGet tm taskId with
          | none => dsimp only; simp
          | some task =>
            dsimp only
            have hbound : stateWeight tm { s with temp := taskId :: s.temp } +
                task.dependencies.length < fuel := by
              have := stateWeight_temp_insert tm s taskId task hget h1 h2
              simp only at hb
              omega
            have hne := ih (Sum.inr task.dependencies) { s with temp := taskId :: s.temp }
              (by simpa using hbound)
            cases hrec : visitFuel tm fuel (Sum.inr task.dependencies)
                { s with temp := taskId :: s.temp } with
            | none => exact absurd hrec hne
            | some r => cases r <;> simp
    · cases ds with
      | nil => rw [visitFuel]; simp
      | cons d ds =>
        rw [visitFuel]
        simp only [List.length_cons] at hb
        have hne1 := ih (Sum.inl d) s (by simp only; omega)
        cases hrec1 : visitFuel tm fuel (Sum.inl d) s with
        | none => exact absurd hrec1 hne1
        | some r =>
          cases r with
          | none => simp
          | some s1 =>
            have hmono := stateWeight_mono tm hrec1
            have hne2 := ih (Sum.inr ds) s1 (by simp only; omega)
            exact hne2

theorem tsLoop_ne_none (tm : List (String × PertTask)) (fuel : Nat) :
    ∀ (ts : List PertTask) (s : TSState), stateWeight tm s < fuel →
      tsLoop tm fuel ts s ≠ none := by
  intro ts
  induction ts with
  | nil => intro s _; rw [tsLoop]; simp
  | cons t ts ih =>
    intro s hb
    rw [tsLoop]
    by_cases hv : t.id ∈ s.visited
    · simp only [if_pos hv]
      exact ih s hb
    · simp only [if_neg hv]
      have hne := visitFuel_sufficient tm fuel (Sum.inl t.id) s (by simp only; omega)
      cases hrec : visitFuel tm fuel (Sum.inl t.id) s with
      | none => exact absurd hrec hne
      | some r =>
        cases r with
        | none => simp
        | some s' =>
          have hmono := stateWeight_mono tm hrec
          exact ih s' (by omega)

theorem foldl_add_eq_sum (w : PertTask → ℕ) :
    ∀ (l : List PertTask) (acc : ℕ),
      l.foldl (fun a t => a + w t) acc = acc + (l.map w).sum := by
  intro l
  induction l with
  | nil => intro acc; simp
  | cons t ts ih =>
    intro acc
    simp only [List.foldl_cons, List.map_cons, List.sum_cons, ih]
    omega

theorem replace_sum_le {α : Type} (w : String × α → ℕ) (k : String) (v : α) :
    ∀ m : List (String × α), (m.map Prod.fst).Nodup →
      ((m.map (fun p => if p.1 = k then (k, v) else p)).map w).sum ≤
        (m.map w).sum + w (k, v) := by
  intro m
  induction m with
  | nil => simp
  | cons p m' ih =>
    intro hnd
    simp only [List.map_cons, List.nodup_cons] at hnd
    by_cases hp : p.1 = k
    · have hfix : m'.map (fun q => if q.1 = k then (k, v) else q) = m' := by
        have heq : m'.map (fun q => if q.1 = k then (k, v) else q) = m'.map id := by
          apply List.map_congr_left
          intro q hq
          have : q.1 ≠ k := by
            intro he
            apply hnd.1
            rw [hp, ← he]
            exact List.mem_map_of_mem Prod.fst hq
          simp [this]
        rw [heq, List.map_id]
      simp only [List.map_cons, if_pos hp, hfix, List.sum_cons]
      omega
    · simp only [List.map_cons, if_neg hp, List.sum_cons]
      have := ih hnd.2
      omega

theorem mapSet_keys_nodup {α : Type} (m : List (String × α)) (k : String) (v : α)
    (h : (m.map Prod.fst).Nodup) : ((mapSet m k v).map Prod.fst).Nodup := by
  unfold mapSet
  split
  · have : (m.map (fun p => if p.1 = k then (k, v) else p)).map Prod.fst = m.map Prod.fst := by
      rw [List.map_map]
      apply List.map_congr_left
      intro q _
      by_cases hq : q.1 = k
      · simp [hq]
      · simp [hq]
    rw [this]
    exact h
  · next hany =>
    have hk : ∀ p ∈ m, p.1 ≠ k := by
      intro p hp he
      exact hany (List.any_eq_true.mpr ⟨p, hp, by simpa using he⟩)
    simp only [List.map_append]
    rw [List.nodup_append]
    refine ⟨h, by simp, ?_⟩
    intro a ha
    simp only [List.map_cons, List.map_nil, List.mem_singleton]
    rcases List.mem_map.mp ha with ⟨p, hp, rfl⟩
    intro hc
    exact hk p hp hc

theorem mapSet_weight_le {α : Type} (w : String × α → ℕ) (m : List (String × α))
    (k : String) (v : α) (h : (m.map Prod.fst).Nodup) :
    ((mapSet m k v).map w).sum ≤ (m.map w).sum + w (k, v) := by
  unfold mapSet
  split
  · exact replace_sum_le w k v m h
  · simp

theorem buildTaskMap_bound (w : String × PertTask → ℕ) :
    ∀ (tasks : List PertTask) (m0 : List (String × PertTask)),
      (m0.map Prod.fst).Nodup →
      ((tasks.foldl (fun m t => mapSet m t.id t) m0).map Prod.fst).Nodup ∧
      (((tasks.foldl (fun m t => mapSet m t.id t) m0).map w).sum ≤
        (m0.map w).sum + (tasks.map (fun t => w (t.id, t))).sum) := by
  intro tasks
  induction tasks with
  | nil => intro m0 h; exact ⟨h, by simp⟩
  | cons t ts ih =>
    intro m0 h
    simp only [List.foldl_cons]
    have h1 := mapSet_keys_nodup m0 t.id t h
    obtain ⟨hn, hs⟩ := ih (mapSet m0 t.id t) h1
    refine ⟨hn, ?_⟩
    have h2 := mapSet_weight_le w m0 t.id t h
    simp only [List.map_cons, List.sum_cons]
    omega

theorem stateWeight_init (tm : List (String × PertTask)) :
    stateWeight tm ⟨[], [], []⟩ = (tm.map (fun p => p.2.dependencies.length + 2)).sum := by
  unfold stateWeight
  congr 1
  congr 1
  apply List.filter_eq_self.mpr
  intro p _
  simp

theorem topologicalSort_isSome (tasks : List PertTask) :
    topologicalSort tasks ≠ none := by
  unfold topologicalSort
  apply tsLoop_ne_none
  rw [stateWeight_init]
  obtain ⟨_, hbound⟩ := buildTaskMap_bound (fun p => p.2.dependencies.length + 2) tasks []
    (by simp)
  unfold sortFuel
  rw [foldl_add_eq_sum]
  unfold buildTaskMap
  simp only [List.map_nil, List.sum_nil, Nat.zero_add] at hbound
  have heq : (tasks.map (fun t => ((t.id, t) : String × PertTask).2.dependencies.length + 2)) =
      (tasks.map (fun t => t.dependencies.length + 2)) := rfl
  rw [heq] at hbound
  omega

theorem tsLoop_props (tm : List (String × PertTask)) (fuel : Nat) :
    ∀ (ts : List PertTask) (s : TSState) (res : List String),
      tsLoop tm fuel ts s = some (some res) →
      (∀ v, v ∈ s.visited ↔ v ∈ s.order) →
      s.order.Nodup →
      (∀ l1 v l2 task, s.order = l1 ++ v :: l2 → mapGet tm v = some task →
        ∀ d ∈ task.dependencies, d ∈ l1) →
      ∃ sfin : TSState, res = sfin.order ∧
        (∀ v ∈ s.visited, v ∈ sfin.visited) ∧
        (∀ t ∈ ts, t.id ∈ sfin.visited) ∧
        (∀ v, v ∈ sfin.visited ↔ v ∈ sfin.order) ∧
        sfin.order.Nodup ∧
        (∀ l1 v l2 task, sfin.order = l1 ++ v :: l2 → mapGet tm v = some task →
          ∀ d ∈ task.dependencies, d ∈ l1) := by
  intro ts
  induction ts with
  | nil =>
    intro s res h hsync hnodup hord
    rw [tsLoop] at h
    simp only [Option.some.injEq] at h
    exact ⟨s, h.symm, fun v hv => hv, fun t ht => absurd ht (List.not_mem_nil t),
      hsync, hnodup, hord⟩
  | cons t ts ih =>
    intro s res h hsync hnodup hord
    rw [tsLoop] at h
    by_cases hv : t.id ∈ s.visited
    · rw [if_pos hv] at h
      obtain ⟨sfin, hres, hgrow, hts, hsync', hnodup', hord'⟩ := ih s res h hsync hnodup hord
      refine ⟨sfin, hres, hgrow, ?_, hsync', hnodup', hord'⟩
      intro u hu
      rcases List.mem_cons.mp hu with rfl | hu
      · exact hgrow u.id hv
      · exact hts u hu
    · rw [if_neg hv] at h
      cases hrec : visitFuel tm fuel (Sum.inl t.id) s with
      | none => rw [hrec] at h; cases h
      | some r =>
        cases r with
        | none => rw [hrec] at h; cases h
        | some s' =>
          rw [hrec] at h
          obtain ⟨hsync1, hnodup1, hord1⟩ := visitFuel_inv tm fuel _ _ _ hrec hsync hnodup hord
          obtain ⟨_, new, _, _, hvis⟩ := visitFuel_growth tm fuel _ _ _ hrec
          obtain ⟨sfin, hres, hgrow, hts, hsync', hnodup', hord'⟩ :=
            ih s' res h hsync1 hnodup1 hord1
          refine ⟨sfin, hres, ?_, ?_, hsync', hnodup', hord'⟩
          · intro u hu
            exact hgrow u ((hvis u).mpr (Or.inl hu))
          · intro u hu
            rcases List.mem_cons.mp hu with rfl | hu
            · exact hgrow u.id (visit_inl_visited tm fuel u.id s s' hrec)
            · exact hts u hu

theorem visitFuel_order_present (tm : List (String × PertTask))
    (Hdeps : ∀ v task, mapGet tm v = some task →
      ∀ d ∈ task.dependencies, (mapGet tm d).isSome) :
    ∀ (fuel : Nat) (x : String ⊕ List String) (s s' : TSState),
      visitFuel tm fuel x s = some (some s') →
      (match x with
       | Sum.inl id => (mapGet tm id).isSome
       | Sum.inr ds => ∀ d ∈ ds, (mapGet tm d).isSome) →
      (∀ v ∈ s.order, (mapGet tm v).isSome) →
      ∀ v ∈ s'.order, (mapGet tm v).isSome := by
  intro fuel
  induction fuel with
  | zero =>
    intro x s s' h
    simp [visitFuel] at h
  | succ fuel ih =>
    rintro (taskId | ds) s s' h hx hs
    · rw [visitFuel] at h
      by_cases h1 : taskId ∈ s.temp
      · simp [h1] at h
      · by_cases h2 : taskId ∈ s.visited
        · simp only [if_neg h1, if_pos h2, Option.some.injEq] at h
          exact h ▸ hs
        · simp only [if_neg h1, if_neg h2] at h
          cases hget : mapGet tm taskId with
          | none =>
            dsimp only at hx
            rw [hget] at hx
            simp at hx
          | some task =>
            rw [hget] at h
            dsimp only at h
            cases hrec : visitFuel tm fuel (Sum.inr task.dependencies)
                { s with temp := taskId :: s.temp } with
            | none => rw [hrec] at h; cases h
            | some r =>
              cases r with
              | none => rw [hrec] at h; cases h
              | some s2 =>
                rw [hrec] at h
                simp only [Option.some.injEq] at h
                subst h
                have h2ord := ih _ _ _ hrec (Hdeps taskId task hget) hs
                intro v hv
                dsimp only at hv
                rcases List.mem_append.mp hv with hv | hv
                · exact h2ord v hv
                · have : v = taskId := by simpa using hv
                  subst this
                  simp [hget]
    · cases ds with
      | nil =>
        rw [visitFuel] at h
        simp only [Option.some.injEq] at h
        exact h ▸ hs
      | cons d ds =>
        rw [visitFuel] at h
        cases hrec1 : visitFuel tm fuel (Sum.inl d) s with
        | none => rw [hrec1] at h; cases h
        | some r =>
          cases r with
          | none => rw [hrec1] at h; cases h
          | some s1 =>
            rw [hrec1] at h
            have hs1 := ih _ _ _ hrec1 (hx d (List.mem_cons_self _ _)) hs
            exact ih _ _ _ h (fun d' hd' => hx d' (List.mem_cons_of_mem _ hd')) hs1

theorem tsLoop_order_present (tm : List (String × PertTask)) (fuel : Nat)
    (Hdeps : ∀ v task, mapGet tm v = some task →
      ∀ d ∈ task.dependencies, (mapGet tm d).isSome) :
    ∀ (ts : List PertTask) (s : TSState) (res : List String),
      tsLoop tm fuel ts s = some (some res) →
      (∀ t ∈ ts, (mapGet tm t.id).isSome) →
      (∀ v ∈ s.order, (mapGet tm v).isSome) →
      ∀ v ∈ res, (mapGet tm v).isSome := by
  intro ts
  induction ts with
  | nil =>
    intro s res h _ hs
    rw [tsLoop] at h
    simp only [Option.some.injEq] at h
    exact h ▸ hs
  | cons t ts ih =>
    intro s res h hts hs
    rw [tsLoop] at h
    by_cases hv : t.id ∈ s.visited
    · rw [if_pos hv] at h
      exact ih s res h (fun u hu => hts u (List.mem_cons_of_mem _ hu)) hs
    · rw [if_neg hv] at h
      cases hrec : visitFuel tm fuel (Sum.inl t.id) s with
      | none => rw [hrec] at h; cases h
      | some r =>
        cases r with
        | none => rw [hrec] at h; cases h
        | some s' =>
          rw [hrec] at h
          have hs' := visitFuel_order_present tm Hdeps fuel _ _ _ hrec
            (hts t (List.mem_cons_self _ _)) hs
          exact ih s' res h (fun u hu => hts u (List.mem_cons_of_mem _ hu)) hs'

theorem topologicalSort_some_spec (tasks : List PertTask) (order : List String)
    (h : topologicalSort tasks = some (some order)) :
    order.Nodup ∧
    (∀ t ∈ tasks, t.id ∈ order) ∧
    (∀ l1 v l2 task, order = l1 ++ v :: l2 →
      mapGet (buildTaskMap tasks) v = some task →
      ∀ d ∈ task.dependencies, d ∈ l1) := by
  unfold topologicalSort at h
  obtain ⟨sfin, hres, _, hts, hsync, hnodup, hord⟩ :=
    tsLoop_props (buildTaskMap tasks) (sortFuel tasks) tasks ⟨[], [], []⟩ order h
      (by simp) (by simp)
      (by intro l1 v l2 task hd _; simp at hd)
  subst hres
  exact ⟨hnodup, fun t ht => (hsync t.id).mp (hts t ht), hord⟩

theorem chain_extract (tm : List (String × PertTask)) :
    ∀ (rest : List String) (t1 id : String),
      List.Chain' (fun a b => ∃ task, mapGet tm b = some task ∧ a ∈ task.dependencies)
        (t1 :: rest) →
      (∀ v ∈ t1 :: rest, (mapGet tm v).isSome) →
      id ∈ t1 :: rest →
      (id = t1 ∨ Relation.TransGen
        (fun a b => (∃ t0, mapGet tm a = some t0 ∧ b ∈ t0.dependencies) ∧
          (∃ u, mapGet tm b = some u)) id t1) := by
  intro rest
  induction rest with
  | nil =>
    intro t1 id _ _ hid
    left
    simpa using hid
  | cons t2 rest ih =>
    intro t1 id hchain hpres hid
    rcases List.mem_cons.mp hid with rfl | hid2
    · exact Or.inl rfl
    · rw [List.chain'_cons] at hchain
      obtain ⟨⟨task1, hget1, hmem1⟩, hchain2⟩ := hchain
      have hedge : (∃ t0, mapGet tm t2 = some t0 ∧ t1 ∈ t0.dependencies) ∧
          (∃ u, mapGet tm t1 = some u) := by
        refine ⟨⟨task1, hget1, hmem1⟩, ?_⟩
        have := hpres t1 (List.mem_cons_self _ _)
        exact Option.isSome_iff_exists.mp this
      rcases ih t2 id hchain2 (fun v hv => hpres v (List.mem_cons_of_mem _ hv)) hid2 with
        rfl | htrans
      · exact Or.inr (Relation.TransGen.single hedge)
      · exact Or.inr (Relation.TransGen.tail htrans hedge)

theorem visitFuel_cycle (tm : List (String × PertTask)) :
    ∀ (fuel : Nat) (x : String ⊕ List String) (s : TSState),
      visitFuel tm fuel x s = some none →
      List.Chain' (fun a b => ∃ task, mapGet tm b = some task ∧ a ∈ task.dependencies)
        s.temp →
      (∀ v ∈ s.temp, (mapGet tm v).isSome) →
      (match x with
       | Sum.inl id => ∀ t, s.temp.head? = some t →
           ∃ task, mapGet tm t = some task ∧ id ∈ task.dependencies
       | Sum.inr ds => ∀ d ∈ ds, ∀ t, s.temp.head? = some t →
           ∃ task, mapGet tm t = some task ∧ d ∈ task.dependencies) →
      ∃ v, Relation.TransGen
        (fun a b => (∃ t0, mapGet tm a = some t0 ∧ b ∈ t0.dependencies) ∧
          (∃ u, mapGet tm b = some u)) v v := by
  intro fuel
  induction fuel with
  | zero =>
    intro x s h
    simp [visitFuel] at h
  | succ fuel ih =>
    rintro (taskId | ds) s h hchain hpres hlink
    · rw [visitFuel] at h
      by_cases h1 : taskId ∈ s.temp
      · cases htemp : s.temp with
        | nil => rw [htemp] at h1; cases h1
        | cons t1 rest =>
          rw [htemp] at hchain hpres h1
          dsimp only at hlink
          have hlink1 := hlink t1 (by rw [htemp]; rfl)
          obtain ⟨task1, hget1, hmem1⟩ := hlink1
          have hidpres : (mapGet tm taskId).isSome := hpres taskId h1
          have hedge : (∃ t0, mapGet tm t1 = some t0 ∧ taskId ∈ t0.dependencies) ∧
              (∃ u, mapGet tm taskId = some u) :=
            ⟨⟨task1, hget1, hmem1⟩, Option.isSome_iff_exists.mp hidpres⟩
          rcases chain_extract tm rest t1 taskId hchain hpres h1 with rfl | htrans
          · exact ⟨taskId, Relation.TransGen.single hedge⟩
          · exact ⟨taskId, Relation.TransGen.tail htrans hedge⟩
      · by_cases h2 : taskId ∈ s.visited
        · simp [h1, h2] at h
        · simp only [if_neg h1, if_neg h2] at h
          cases hget : mapGet tm taskId with
          | none =>
            rw [hget] at h
            dsimp only at h
            cases h
          | some task =>
            rw [hget] at h
            dsimp only at h
            cases hrec : visitFuel tm fuel (Sum.inr task.dependencies)
                { s with temp := taskId :: s.temp } with
            | none => rw [hrec] at h; cases h
            | some r =>
              cases r with
              | some s2 => rw [hrec] at h; cases h
              | none =>
                apply ih (Sum.inr task.dependencies) { s with temp := taskId :: s.temp } hrec
                · rw [List.chain'_cons']
                  exact ⟨fun t ht => hlink t (by simpa using ht), hchain⟩
                · intro v hv
                  rcases List.mem_cons.mp hv with rfl | hv
                  · simp [hget]
                  · exact hpres v hv
                · intro d hd t ht
                  have heq : taskId = t := by simpa using ht
                  subst heq
                  exact ⟨task, hget, hd⟩
    · cases ds with
      | nil => rw [visitFuel] at h; cases h
      | cons d ds =>
        rw [visitFuel] at h
        cases hrec1 : visitFuel tm fuel (Sum.inl d) s with
        | none => rw [hrec1] at h; cases h
        | some r =>
          cases r with
          | none =>
            exact ih (Sum.inl d) s hrec1 hchain hpres
              (fun t ht => hlink d (List.mem_cons_self _ _) t ht)
          | some s1 =>
            rw [hrec1] at h
            obtain ⟨htemp1, _, _, _, _⟩ := visitFuel_growth tm fuel _ _ _ hrec1
            apply ih (Sum.inr ds) s1 h
            · rw [htemp1]; exact hchain
            · rw [htemp1]; exact hpres
            · intro d' hd' t ht
              rw [htemp1] at ht
              exact hlink d' (List.mem_cons_of_mem _ hd') t ht

theorem tsLoop_cycle (tm : List (String × PertTask)) (fuel : Nat) :
    ∀ (ts : List PertTask) (s : TSState),
      tsLoop tm fuel ts s = some none → s.temp = [] →
      ∃ v, Relation.TransGen
        (fun a b => (∃ t0, mapGet tm a = some t0 ∧ b ∈ t0.dependencies) ∧
          (∃ u, mapGet tm b = some u)) v v := by
  intro ts
  induction ts with
  | nil =>
    intro s h _
    rw [tsLoop] at h
    cases h
  | cons t ts ih =>
    intro s h htemp
    rw [tsLoop] at h
    by_cases hv : t.id ∈ s.visited
    · rw [if_pos hv] at h
      exact ih s h htemp
    · rw [if_neg hv] at h
      cases hrec : visitFuel tm fuel (Sum.inl t.id) s with
      | none => rw [hrec] at h; cases h
      | some r =>
        cases r with
        | none =>
          apply visitFuel_cycle tm fuel (Sum.inl t.id) s hrec
          · rw [htemp]; exact List.chain'_nil
          · rw [htemp]; intro v hv2; cases hv2
          · intro t2 ht2
            rw [htemp] at ht2
            cases ht2
        | some s' =>
          rw [hrec] at h
          obtain ⟨htemp', _, _, _, _⟩ := visitFuel_growth tm fuel _ _ _ hrec
          exact ih s' h (htemp'.trans htemp)

theorem topologicalSort_null_hasCycle (tasks : List PertTask)
    (h : topologicalSort tasks = some none) : HasCycle tasks := by
  unfold topologicalSort at h
  obtain ⟨v, hv⟩ := tsLoop_cycle (buildTaskMap tasks) (sortFuel tasks) tasks ⟨[], [], []⟩ h rfl
  exact ⟨v, hv⟩

theorem index_lt_of_before {order : List String} (hnd : order.Nodup)
    {l1 : List String} {v : String} {l2 : List String} (h : order = l1 ++ v :: l2)
    {d : String} (hd : d ∈ l1) :
    order.indexOf d < order.indexOf v := by
  have hvnot : v ∉ l1 := by
    subst h
    rw [List.nodup_append] at hnd
    intro hc
    exact hnd.2.2 hc (List.mem_cons_self _ _)
  subst h
  rw [List.indexOf_append_of_mem hd]
  rw [List.indexOf_append_of_not_mem hvnot]
  have h1 : List.indexOf d l1 < l1.length := List.indexOf_lt_length.mpr hd
  omega

theorem topologicalSort_some_not_hasCycle (tasks : List PertTask) (order : List String)
    (h : topologicalSort tasks = some (some order)) : ¬ HasCycle tasks := by
  obtain ⟨hnd, hmem, hord⟩ := topologicalSort_some_spec tasks order h
  rintro ⟨v, hv⟩
  have hdec : ∀ a b : String, DepEdge tasks a b →
      order.indexOf b < order.indexOf a := by
    intro a b hab
    obtain ⟨⟨task, hget, hdep⟩, _⟩ := hab
    have hamem : a ∈ order := by
      have hpm := mapGet_eq_some_mem hget
      rcases foldBuild_mem_values PertTask.id (fun t => t) tasks [] _ hpm with h0 | ⟨t, ht, he⟩
      · cases h0
      · have ha : a = t.id := congrArg Prod.fst he
        have htask : task = t := congrArg Prod.snd he
        exact ha ▸ hmem t ht
    obtain ⟨l1, l2, hdecomp⟩ := List.append_of_mem hamem
    have hb := hord l1 a l2 task hdecomp hget b hdep
    exact index_lt_of_before hnd hdecomp hb
  have : ∀ x y : String, Relation.TransGen (DepEdge tasks) x y →
      order.indexOf y < order.indexOf x := by
    intro x y hxy
    induction hxy with
    | single h1 => exact hdec _ _ h1
    | tail _ h2 ih => exact lt_trans (hdec _ _ h2) ih
  exact absurd (this v v hv) (lt_irrefl _)

theorem hasCycle_topologicalSort_null (tasks : List PertTask)
    (h : HasCycle tasks) : topologicalSort tasks = some none := by
  cases hs : topologicalSort tasks with
  | none => exact absurd hs (topologicalSort_isSome tasks)
  | some r =>
    cases r with
    | none => rfl
    | some order => exact absurd h (topologicalSort_some_not_hasCycle tasks order hs)

theorem not_hasCycle_topologicalSort_some (tasks : List PertTask)
    (h : ¬ HasCycle tasks) : ∃ order, topologicalSort tasks = some (some order) := by
  cases hs : topologicalSort tasks with
  | none => exact absurd hs (topologicalSort_isSome tasks)
  | some r =>
    cases r with
    | none => exact absurd (topologicalSort_null_hasCycle tasks hs) h
    | some order => exact ⟨order, rfl⟩

/-! ## Forward / backward pass machinery -/

theorem mapGet_mapSet_cases {α : Type} {m : List (String × α)} {k x : String} {v w : α}
    (h : mapGet (mapSet m k v) x = some w) :
    (x = k ∧ w = v) ∨ (x ≠ k ∧ mapGet m x = some w) := by
  by_cases hx : x = k
  · subst hx
    rw [mapGet_mapSet_self] at h
    exact Or.inl ⟨rfl, (Option.some.injEq _ _ ▸ h).symm⟩
  · rw [mapGet_mapSet_ne m k x v hx] at h
    exact Or.inr ⟨hx, h⟩

theorem isSome_mapGet_mapSet_of_mem {α : Type} (m : List (String × α)) (k : String)
    (v : α) (hk : (mapGet m k).isSome) (x : String) :
    (mapGet (mapSet m k v) x).isSome ↔ (mapGet m x).isSome := by
  by_cases hx : x = k
  · subst hx
    simp [mapGet_mapSet_self, hk]
  · rw [mapGet_mapSet_ne m k x v hx]

theorem forwardPass_total :
    ∀ (ids : List String) (m : List (String × PertNode)),
      (∀ id ∈ ids, (mapGet m id).isSome) →
      ∃ m', forwardPass ids m = some m' := by
  intro ids
  induction ids with
  | nil => intro m _; exact ⟨m, rfl⟩
  | cons id rest ih =>
    intro m hm
    have hid := hm id (List.mem_cons_self _ _)
    cases hget : mapGet m id with
    | none => rw [hget] at hid; cases hid
    | some node =>
      rw [forwardPass, hget]
      apply ih
      intro x hx
      rw [isSome_mapGet_mapSet_of_mem m id _ (by simp [hget]) x]
      exact hm x (List.mem_cons_of_mem _ hx)

theorem backwardPass_total (succMap : List (String × List String)) (projD : ℚ) :
    ∀ (ids : List String) (m : List (String × PertNode)),
      (∀ id ∈ ids, (mapGet m id).isSome) →
      ∃ m', backwardPass succMap projD ids m = some m' := by
  intro ids
  induction ids with
  | nil => intro m _; exact ⟨m, rfl⟩
  | cons id rest ih =>
    intro m hm
    have hid := hm id (List.mem_cons_self _ _)
    cases hget : mapGet m id with
    | none => rw [hget] at hid; cases hid
    | some node =>
      rw [backwardPass, hget]
      apply ih
      intro x hx
      rw [isSome_mapGet_mapSet_of_mem m id _ (by simp [hget]) x]
      exact hm x (List.mem_cons_of_mem _ hx)

theorem forwardPass_preserves_notin :
    ∀ (ids : List String) (m m' : List (String × PertNode)),
      forwardPass ids m = some m' → ∀ x ∉ ids, mapGet m' x = mapGet m x := by
  intro ids
  induction ids with
  | nil =>
    intro m m' h x _
    rw [forwardPass] at h
    cases h
    rfl
  | cons id rest ih =>
    intro m m' h x hx
    rw [forwardPass] at h
    cases hget : mapGet m id with
    | none => rw [hget] at h; cases h
    | some node =>
      rw [hget] at h
      dsimp only at h
      have hxid : x ≠ id := fun he => hx (he ▸ List.mem_cons_self _ _)
      rw [ih _ _ h x (fun hc => hx (List.mem_cons_of_mem _ hc))]
      exact mapGet_mapSet_ne m id x _ hxid

theorem backwardPass_preserves_notin (succMap : List (String × List String)) (projD : ℚ) :
    ∀ (ids : List String) (m m' : List (String × PertNode)),
      backwardPass succMap projD ids m = some m' → ∀ x ∉ ids, mapGet m' x = mapGet m x := by
  intro ids
  induction ids with
  | nil =>
    intro m m' h x _
    rw [backwardPass] at h
    cases h
    rfl
  | cons id rest ih =>
    intro m m' h x hx
    rw [backwardPass] at h
    cases hget : mapGet m id with
    | none => rw [hget] at h; cases h
    | some node =>
      rw [hget] at h
      dsimp only at h
      have hxid : x ≠ id := fun he => hx (he ▸ List.mem_cons_self _ _)
      rw [ih _ _ h x (fun hc => hx (List.mem_cons_of_mem _ hc))]
      exact mapGet_mapSet_ne m id x _ hxid

theorem mapGet_none_of_not_key {α : Type} {m : List (String × α)} {k : String}
    (h : k ∉ m.map Prod.fst) : mapGet m k = none := by
  induction m with
  | nil => rfl
  | cons p t ih =>
    simp only [List.map_cons, List.mem_cons, not_or] at h
    unfold mapGet
    rw [List.find?_cons_of_neg _ (by simpa using fun he => h.1 he.symm)]
    exact ih h.2

theorem mapGet_of_mem_nodup {α : Type} {m : List (String × α)}
    (hnd : (m.map Prod.fst).Nodup) {k : String} {w : α} (hm : (k, w) ∈ m) :
    mapGet m k = some w := by
  induction m with
  | nil => cases hm
  | cons p t ih =>
    simp only [List.map_cons, List.nodup_cons] at hnd
    rcases List.mem_cons.mp hm with rfl | hm2
    · unfold mapGet
      rw [List.find?_cons_of_pos _ (by simp)]
      rfl
    · have hne : p.1 ≠ k := by
        intro he
        apply hnd.1
        rw [he]
        exact List.mem_map_of_mem Prod.fst hm2
      unfold mapGet
      rw [List.find?_cons_of_neg _ (by simpa using hne)]
      exact ih hnd.2 hm2

theorem mapSet_keys_eq_of_isSome {α : Type} (m : List (String × α)) (k : String) (v : α)
    (hk : (mapGet m k).isSome) :
    (mapSet m k v).map Prod.fst = m.map Prod.fst := by
  have hany : (m.any fun p => p.1 = k) = true := by
    cases hget : mapGet m k with
    | none => rw [hget] at hk; cases hk
    | some w =>
      have := mapGet_eq_some_mem hget
      exact List.any_eq_true.mpr ⟨(k, w), this, by simp⟩
  unfold mapSet
  rw [if_pos hany, List.map_map]
  apply List.map_congr_left
  intro q _
  by_cases hq : q.1 = k
  · simp [hq]
  · simp [hq]

theorem forwardPass_get_proj {β : Type} (g : PertNode → β)
    (hg : ∀ node es ef, g { node with earlyStart := es, earlyFinish := ef } = g node) :
    ∀ (ids : List String) (m m' : List (String × PertNode)),
      forwardPass ids m = some m' →
      ∀ x, (mapGet m' x).map g = (mapGet m x).map g := by
  intro ids
  induction ids with
  | nil =>
    intro m m' h x
    rw [forwardPass] at h
    cases h
    rfl
  | cons id rest ih =>
    intro m m' h x
    rw [forwardPass] at h
    cases hget : mapGet m id with
    | none => rw [hget] at h; cases h
    | some node =>
      rw [hget] at h
      dsimp only at h
      rw [ih _ _ h x]
      by_cases hx : x = id
      · subst hx
        rw [mapGet_mapSet_self, hget]
        dsimp only [Option.map]
        exact congrArg some (hg node _ _)
      · rw [mapGet_mapSet_ne _ _ _ _ hx]

theorem backwardPass_get_proj {β : Type} (g : PertNode → β)
    (hg : ∀ node lf ls sl cr, g { node with
      lateFinish := lf, lateStart := ls, slack := sl, isCritical := cr } = g node)
    (succMap : List (String × List String)) (projD : ℚ) :
    ∀ (ids : List String) (m m' : List (String × PertNode)),
      backwardPass succMap projD ids m = some m' →
      ∀ x, (mapGet m' x).map g = (mapGet m x).map g := by
  intro ids
  induction ids with
  | nil =>
    intro m m' h x
    rw [backwardPass] at h
    cases h
    rfl
  | cons id rest ih =>
    intro m m' h x
    rw [backwardPass] at h
    cases hget : mapGet m id with
    | none => rw [hget] at h; cases h
    | some node =>
      rw [hget] at h
      dsimp only at h
      rw [ih _ _ h x]
      by_cases hx : x = id
      · subst hx
        rw [mapGet_mapSet_self, hget]
        dsimp only [Option.map]
        exact congrArg some (hg node _ _ _ _)
      · rw [mapGet_mapSet_ne _ _ _ _ hx]

theorem forwardPass_keys_eq :
    ∀ (ids : List String) (m m' : List (String × PertNode)),
      forwardPass ids m = some m' → m'.map Prod.fst = m.map Prod.fst := by
  intro ids
  induction ids with
  | nil =>
    intro m m' h
    rw [forwardPass] at h
    cases h
    rfl
  | cons id rest ih =>
    intro m m' h
    rw [forwardPass] at h
    cases hget : mapGet m id with
    | none => rw [hget] at h; cases h
    | some node =>
      rw [hget] at h
      dsimp only at h
      rw [ih _ _ h]
      exact mapSet_keys_eq_of_isSome m id _ (by simp [hget])

theorem backwardPass_keys_eq (succMap : List (String × List String)) (projD : ℚ) :
    ∀ (ids : List String) (m m' : List (String × PertNode)),
      backwardPass succMap projD ids m = some m' → m'.map Prod.fst = m.map Prod.fst := by
  intro ids
  induction ids with
  | nil =>
    intro m m' h
    rw [backwardPass] at h
    cases h
    rfl
  | cons id rest ih =>
    intro m m' h
    rw [backwardPass] at h
    cases hget : mapGet m id with
    | none => rw [hget] at h; cases h
    | some node =>
      rw [hget] at h
      dsimp only at h
      rw [ih _ _ h]
      exact mapSet_keys_eq_of_isSome m id _ (by simp [hget])

theorem map_proj_eq_of_get {α β : Type} (g : α → β) :
    ∀ (m1 m2 : List (String × α)),
      m1.map Prod.fst = m2.map Prod.fst → (m1.map Prod.fst).Nodup →
      (∀ k, (mapGet m1 k).map g = (mapGet m2 k).map g) →
      m1.map (fun p => g p.2) = m2.map (fun p => g p.2) := by
  intro m1
  induction m1 with
  | nil =>
    intro m2 hk _ _
    cases m2 with
    | nil => rfl
    | cons q t2 => cases hk
  | cons p t1 ih =>
    intro m2 hk hnd hget
    cases m2 with
    | nil => cases hk
    | cons q t2 =>
      simp only [List.map_cons, List.cons.injEq] at hk
      simp only [List.map_cons, List.nodup_cons] at hnd
      have hhead := hget p.1
      rw [show mapGet (p :: t1) p.1 = some p.2 from by
            unfold mapGet; rw [List.find?_cons_of_pos _ (by simp)]; rfl,
          show mapGet (q :: t2) p.1 = some q.2 from by
            unfold mapGet; rw [List.find?_cons_of_pos _ (by simp [hk.1])]; rfl] at hhead
      dsimp only [Option.map] at hhead
      simp only [Option.some.injEq] at hhead
      simp only [List.map_cons, hhead]
      rw [ih t2 hk.2 hnd.2]
      intro k
      by_cases hkp : k = p.1
      · subst hkp
        rw [mapGet_none_of_not_key hnd.1, mapGet_none_of_not_key (hk.2 ▸ hnd.1)]
      · have h1 : mapGet (p :: t1) k = mapGet t1 k := by
          unfold mapGet
          rw [List.find?_cons_of_neg _ (by simpa using fun he => hkp he.symm)]
        have h2 : mapGet (q :: t2) k = mapGet t2 k := by
          unfold mapGet
          rw [List.find?_cons_of_neg _ (by simpa using fun he => hkp (hk.1 ▸ he.symm))]
        have := hget k
        rw [h1, h2] at this
        exact this

theorem maxPredecessorEF_congr (m1 m2 : List (String × PertNode)) (deps : List String)
    (h : ∀ d ∈ deps, (mapGet m1 d).map (fun n => n.earlyFinish) =
      (mapGet m2 d).map (fun n => n.earlyFinish)) :
    maxPredecessorEF m1 deps = maxPredecessorEF m2 deps := by
  unfold maxPredecessorEF
  have aux : ∀ (l : List String), (∀ d ∈ l, (mapGet m1 d).map (fun n => n.earlyFinish) =
      (mapGet m2 d).map (fun n => n.earlyFinish)) → ∀ acc : ℚ,
      l.foldl (fun acc depId => match mapGet m1 depId with
        | some depNode => max acc depNode.earlyFinish
        | none => acc) acc =
      l.foldl (fun acc depId => match mapGet m2 depId with
        | some depNode => max acc depNode.earlyFinish
        | none => acc) acc := by
    intro l
    induction l with
    | nil => intro _ acc; rfl
    | cons d ds ih =>
      intro hl acc
      have hd := hl d (List.mem_cons_self _ _)
      simp only [List.foldl_cons]
      cases hm1 : mapGet m1 d with
      | none =>
        cases hm2 : mapGet m2 d with
        | none => exact ih (fun x hx => hl x (List.mem_cons_of_mem _ hx)) acc
        | some n2 => rw [hm1, hm2] at hd; cases hd
      | some n1 =>
        cases hm2 : mapGet m2 d with
        | none => rw [hm1, hm2] at hd; cases hd
        | some n2 =>
          rw [hm1, hm2] at hd
          dsimp only [Option.map] at hd
          simp only [Option.some.injEq] at hd
          dsimp only
          rw [hd]
          exact ih (fun x hx => hl x (List.mem_cons_of_mem _ hx)) _
  exact aux deps h 0

theorem minSuccessorLS_congr (m1 m2 : List (String × PertNode)) (succs : List String)
    (h : ∀ x ∈ succs, (mapGet m1 x).map (fun n => n.lateStart) =
      (mapGet m2 x).map (fun n => n.lateStart)) :
    minSuccessorLS m1 succs = minSuccessorLS m2 succs := by
  unfold minSuccessorLS
  have aux : ∀ (l : List String), (∀ x ∈ l, (mapGet m1 x).map (fun n => n.lateStart) =
      (mapGet m2 x).map (fun n => n.lateStart)) → ∀ acc : WithTop ℚ,
      l.foldl (fun acc succId => match mapGet m1 succId with
        | some succNode => min acc (succNode.lateStart : WithTop ℚ)
        | none => acc) acc =
      l.foldl (fun acc succId => match mapGet m2 succId with
        | some succNode => min acc (succNode.lateStart : WithTop ℚ)
        | none => acc) acc := by
    intro l
    induction l with
    | nil => intro _ acc; rfl
    | cons x xs ih =>
      intro hl acc
      have hx := hl x (List.mem_cons_self _ _)
      simp only [List.foldl_cons]
      cases hm1 : mapGet m1 x with
      | none =>
        cases hm2 : mapGet m2 x with
        | none => exact ih (fun y hy => hl y (List.mem_cons_of_mem _ hy)) acc
        | some n2 => rw [hm1, hm2] at hx; cases hx
      | some n1 =>
        cases hm2 : mapGet m2 x with
        | none => rw [hm1, hm2] at hx; cases hx
        | some n2 =>
          rw [hm1, hm2] at hx
          dsimp only [Option.map] at hx
          simp only [Option.some.injEq] at hx
          dsimp only
          rw [hx]
          exact ih (fun y hy => hl y (List.mem_cons_of_mem _ hy)) _
  exact aux succs h ⊤

theorem head_deps_out {i : String} {rest : List String} (hnd : (i :: rest).Nodup)
    {d : String}
    (hcase : (∃ l1 l2, i :: rest = l1 ++ i :: l2 ∧ d ∈ l1) ∨ d ∉ i :: rest) :
    d ∉ i :: rest := by
  simp only [List.nodup_cons] at hnd
  rcases hcase with ⟨l1, l2, hdec, hdl1⟩ | hout
  · cases l1 with
    | nil => cases hdl1
    | cons a l1' =>
      simp only [List.cons_append, List.cons.injEq] at hdec
      exact absurd (hdec.2 ▸ List.mem_append.mpr (Or.inr (List.mem_cons_self _ _))) hnd.1
  · exact hout

theorem tail_deps_case {i i' : String} {rest : List String} (hnd : (i :: rest).Nodup)
    (hi' : i' ∈ rest) {d : String}
    (hcase : (∃ l1 l2, i :: rest = l1 ++ i' :: l2 ∧ d ∈ l1) ∨ d ∉ i :: rest) :
    (∃ l1 l2, rest = l1 ++ i' :: l2 ∧ d ∈ l1) ∨ d ∉ rest := by
  simp only [List.nodup_cons] at hnd
  rcases hcase with ⟨l1, l2, hdec, hdl1⟩ | hout
  · cases l1 with
    | nil =>
      simp only [List.nil_append, List.cons.injEq] at hdec
      exact absurd (hdec.1 ▸ hi') hnd.1
    | cons a l1' =>
      simp only [List.cons_append, List.cons.injEq] at hdec
      rcases List.mem_cons.mp hdl1 with rfl | hdl1'
      · exact Or.inr (hdec.1 ▸ hnd.1)
      · exact Or.inl ⟨l1', l2, hdec.2, hdl1'⟩
  · exact Or.inr (fun hc => hout (List.mem_cons_of_mem _ hc))

theorem forwardPass_spec :
    ∀ (ids : List String) (m m' : List (String × PertNode)),
      forwardPass ids m = some m' → ids.Nodup →
      (∀ i ∈ ids, ∀ node, mapGet m i = some node →
        ∀ d ∈ node.dependencies,
          (∃ l1 l2, ids = l1 ++ i :: l2 ∧ d ∈ l1) ∨ d ∉ ids) →
      ∀ j ∈ ids, ∃ node, mapGet m j = some node ∧
        mapGet m' j = some { node with
          earlyStart := maxPredecessorEF m' node.dependencies,
          earlyFinish := maxPredecessorEF m' node.dependencies + node.duration } := by
  intro ids
  induction ids with
  | nil => intro m m' _ _ _ j hj; cases hj
  | cons i rest ih =>
    intro m m' h hnd hdeps j hj
    rw [forwardPass] at h
    cases hget : mapGet m i with
    | none => rw [hget] at h; cases h
    | some node_i =>
      rw [hget] at h
      dsimp only at h
      have hirest : i ∉ rest := (List.nodup_cons.mp hnd).1
      have hF1 : ∀ d ∈ node_i.dependencies, d ∉ i :: rest := by
        intro d hd
        exact head_deps_out hnd (hdeps i (List.mem_cons_self _ _) node_i hget d hd)
      have hEq_d : ∀ d ∈ node_i.dependencies, mapGet m' d = mapGet m d := by
        intro d hd
        have hout := hF1 d hd
        rw [forwardPass_preserves_notin rest _ _ h d
          (fun hc => hout (List.mem_cons_of_mem _ hc))]
        exact mapGet_mapSet_ne m i d _ (fun he => hout (he ▸ List.mem_cons_self _ _))
      have hMax : maxPredecessorEF m' node_i.dependencies =
          maxPredecessorEF m node_i.dependencies := by
        apply maxPredecessorEF_congr
        intro d hd
        rw [hEq_d d hd]
      rcases List.mem_cons.mp hj with rfl | hj'
      · refine ⟨node_i, hget, ?_⟩
        rw [forwardPass_preserves_notin rest _ _ h j hirest]
        rw [mapGet_mapSet_self]
        rw [hMax]
      · have hdeps' : ∀ i' ∈ rest, ∀ node, mapGet (mapSet m i
            { node_i with
              earlyStart := maxPredecessorEF m node_i.dependencies,
              earlyFinish := maxPredecessorEF m node_i.dependencies + node_i.duration }) i' =
              some node →
            ∀ d ∈ node.dependencies,
              (∃ l1 l2, rest = l1 ++ i' :: l2 ∧ d ∈ l1) ∨ d ∉ rest := by
          intro i' hi' node hnode d hd
          have hne : i' ≠ i := fun he => hirest (he ▸ hi')
          rw [mapGet_mapSet_ne m i i' _ hne] at hnode
          exact tail_deps_case hnd hi' (hdeps i' (List.mem_cons_of_mem _ hi') node hnode d hd)
        obtain ⟨node, hnode, hm'⟩ := ih _ _ h (List.nodup_cons.mp hnd).2 hdeps' j hj'
        have hne : j ≠ i := fun he => hirest (he ▸ hj')
        rw [mapGet_mapSet_ne m i j _ hne] at hnode
        exact ⟨node, hnode, hm'⟩

theorem backwardPass_spec (succMap : List (String × List String)) (projD : ℚ) :
    ∀ (ids : List String) (m m' : List (String × PertNode)),
      backwardPass succMap projD ids m = some m' → ids.Nodup →
      (∀ i ∈ ids, ∀ x ∈ (mapGet succMap i).getD [],
        (∃ l1 l2, ids = l1 ++ i :: l2 ∧ x ∈ l1) ∨ x ∉ ids) →
      ∀ j ∈ ids, ∃ node lf, mapGet m j = some node ∧
        lf = (if ((mapGet succMap j).getD []).isEmpty then projD
              else (minSuccessorLS m' ((mapGet succMap j).getD [])).untop' 0) ∧
        mapGet m' j = some { node with
          lateFinish := lf,
          lateStart := lf - node.duration,
          slack := lf - node.duration - node.earlyStart,
          isCritical := decide (|lf - node.duration - node.earlyStart| < 1 / 100) } := by
  intro ids
  induction ids with
  | nil => intro m m' _ _ _ j hj; cases hj
  | cons i rest ih =>
    intro m m' h hnd hsuccs j hj
    rw [backwardPass] at h
    cases hget : mapGet m i with
    | none => rw [hget] at h; cases h
    | some node_i =>
      rw [hget] at h
      dsimp only at h
      have hirest : i ∉ rest := (List.nodup_cons.mp hnd).1
      have hF1 : ∀ x ∈ (mapGet succMap i).getD [], x ∉ i :: rest := by
        intro x hx
        exact head_deps_out hnd (hsuccs i (List.mem_cons_self _ _) x hx)
      have hEq_x : ∀ x ∈ (mapGet succMap i).getD [], mapGet m' x = mapGet m x := by
        intro x hx
        have hout := hF1 x hx
        rw [backwardPass_preserves_notin succMap projD rest _ _ h x
          (fun hc => hout (List.mem_cons_of_mem _ hc))]
        exact mapGet_mapSet_ne m i x _ (fun he => hout (he ▸ List.mem_cons_self _ _))
      have hMin : minSuccessorLS m' ((mapGet succMap i).getD []) =
          minSuccessorLS m ((mapGet succMap i).getD []) := by
        apply minSuccessorLS_congr
        intro x hx
        rw [hEq_x x hx]
      rcases List.mem_cons.mp hj with rfl | hj'
      · refine ⟨node_i, _, hget, rfl, ?_⟩
        rw [backwardPass_preserves_notin succMap projD rest _ _ h j hirest]
        rw [mapGet_mapSet_self]
        rw [hMin]
      · have hsuccs' : ∀ i' ∈ rest, ∀ x ∈ (mapGet succMap i').getD [],
            (∃ l1 l2, rest = l1 ++ i' :: l2 ∧ x ∈ l1) ∨ x ∉ rest := by
          intro i' hi' x hx
          exact tail_deps_case hnd hi' (hsuccs i' (List.mem_cons_of_mem _ hi') x hx)
        obtain ⟨node, lf, hnode, hlf, hm'⟩ := ih _ _ h (List.nodup_cons.mp hnd).2 hsuccs' j hj'
        have hne : j ≠ i := fun he => hirest (he ▸ hj')
        rw [mapGet_mapSet_ne m i j _ hne] at hnode
        exact ⟨node, lf, hnode, hlf, hm'⟩

theorem isSome_of_map_proj {α β : Type} {o1 o2 : Option α} {g : α → β}
    (h : o1.map g = o2.map g) : o1.isSome ↔ o2.isSome := by
  cases o1 with
  | none =>
    cases o2 with
    | none => simp
    | some b => cases h
  | some a =>
    cases o2 with
    | none => cases h
    | some b => simp

theorem foldBuild_keys_nodup {α β : Type} (key : β → String) (f : β → α) :
    ∀ (items : List β) (m0 : List (String × α)),
      (m0.map Prod.fst).Nodup →
      ((items.foldl (fun m t => mapSet m (key t) (f t)) m0).map Prod.fst).Nodup := by
  intro items
  induction items with
  | nil => intro m0 h; exact h
  | cons t ts ih =>
    intro m0 h
    exact ih _ (mapSet_keys_nodup m0 (key t) (f t) h)

theorem forwardPass_id_inv :
    ∀ (ids : List String) (m m' : List (String × PertNode)),
      forwardPass ids m = some m' → (∀ p ∈ m, p.2.id = p.1) →
      ∀ p ∈ m', p.2.id = p.1 := by
  intro ids
  induction ids with
  | nil =>
    intro m m' h hm
    rw [forwardPass] at h
    cases h
    exact hm
  | cons id rest ih =>
    intro m m' h hm
    rw [forwardPass] at h
    cases hget : mapGet m id with
    | none => rw [hget] at h; cases h
    | some node =>
      rw [hget] at h
      dsimp only at h
      apply ih _ _ h
      intro p hp
      rcases mem_mapSet hp with hp2 | hp2
      · exact hm p hp2
      · subst hp2
        exact hm (id, node) (mapGet_eq_some_mem hget)

theorem backwardPass_id_inv (succMap : List (String × List String)) (projD : ℚ) :
    ∀ (ids : List String) (m m' : List (String × PertNode)),
      backwardPass succMap projD ids m = some m' → (∀ p ∈ m, p.2.id = p.1) →
      ∀ p ∈ m', p.2.id = p.1 := by
  intro ids
  induction ids with
  | nil =>
    intro m m' h hm
    rw [backwardPass] at h
    cases h
    exact hm
  | cons id rest ih =>
    intro m m' h hm
    rw [backwardPass] at h
    cases hget : mapGet m id with
    | none => rw [hget] at h; cases h
    | some node =>
      rw [hget] at h
      dsimp only at h
      apply ih _ _ h
      intro p hp
      rcases mem_mapSet hp with hp2 | hp2
      · exact hm p hp2
      · subst hp2
        exact hm (id, node) (mapGet_eq_some_mem hget)

theorem projectDurationOf_congr {m1 m2 : List (String × PertNode)}
    (h : m1.map (fun p => p.2.earlyFinish) = m2.map (fun p => p.2.earlyFinish)) :
    projectDurationOf m1 = projectDurationOf m2 := by
  unfold projectDurationOf
  have e1 : m1.foldl (fun acc p => max acc p.2.earlyFinish) 0 =
      (m1.map (fun p => p.2.earlyFinish)).foldl max 0 := by
    rw [List.foldl_map]
  have e2 : m2.foldl (fun acc p => max acc p.2.earlyFinish) 0 =
      (m2.map (fun p => p.2.earlyFinish)).foldl max 0 := by
    rw [List.foldl_map]
  rw [e1, e2, h]

theorem reverse_decomp_succ {order l1 l2 : List String} {x i : String}
    (hdec : order = l1 ++ x :: l2) (hi : i ∈ l1) :
    ∃ L1 L2, order.reverse = L1 ++ i :: L2 ∧ x ∈ L1 := by
  obtain ⟨a, b, rfl⟩ := List.append_of_mem hi
  refine ⟨(b ++ x :: l2).reverse, a.reverse, ?_, ?_⟩
  · rw [hdec]
    simp [List.reverse_append]
  · rw [List.mem_reverse]
    exact List.mem_append.mpr (Or.inr (List.mem_cons_self _ _))

theorem topologicalSort_order_present (tasks : List PertTask) (order : List String)
    (h : topologicalSort tasks = some (some order))
    (Hdeps : ∀ v task, mapGet (buildTaskMap tasks) v = some task →
      ∀ d ∈ task.dependencies, (mapGet (buildTaskMap tasks) d).isSome) :
    ∀ v ∈ order, (mapGet (buildTaskMap tasks) v).isSome := by
  unfold topologicalSort at h
  apply tsLoop_order_present (buildTaskMap tasks) (sortFuel tasks) Hdeps tasks ⟨[], [], []⟩ order h
  · intro t ht
    rw [show buildTaskMap tasks = tasks.foldl (fun m u => mapSet m u.id u) [] from rfl]
    rw [foldBuild_get_isSome PertTask.id (fun u => u) tasks [] t.id]
    exact Or.inl ⟨t, ht, rfl⟩
  · intro v hv
    cases hv

theorem calculateCPM_valid_run (tasks : List PertTask)
    (hnd : (tasks.map PertTask.id).Nodup)
    (hdang : ∀ t ∈ tasks, ∀ d ∈ t.dependencies, ∃ u ∈ tasks, u.id = d)
    (hacyc : ¬ HasCycle tasks) :
    ∃ (order : List String) (m2 : List (String × PertNode)),
      topologicalSort tasks = some (some order) ∧
      calculateCPM tasks = some (m2.map (fun p => p.2)) ∧
      order.Nodup ∧
      (∀ t ∈ tasks, t.id ∈ order) ∧
      (∀ l1 v l2 task, order = l1 ++ v :: l2 →
        mapGet (buildTaskMap tasks) v = some task →
        ∀ d ∈ task.dependencies, d ∈ l1) ∧
      (∀ v, (mapGet m2 v).isSome ↔ ∃ t ∈ tasks, t.id = v) ∧
      (∀ v, v ∈ order ↔ (mapGet m2 v).isSome) ∧
      (m2.map Prod.fst).Nodup ∧
      (∀ p ∈ m2, p.2.id = p.1) ∧
      (∀ t ∈ tasks, ∃ node, mapGet m2 t.id = some node ∧
        node.toPertTask = t ∧ node.duration = calculateExpectedTime t) ∧
      (∀ j node2, mapGet m2 j = some node2 →
        node2.earlyStart = maxPredecessorEF m2 node2.dependencies ∧
        node2.earlyFinish = node2.earlyStart + node2.duration ∧
        node2.lateFinish = (if ((mapGet (buildSuccessorsMap tasks) j).getD []).isEmpty
          then projectDurationOf m2
          else (minSuccessorLS m2
            ((mapGet (buildSuccessorsMap tasks) j).getD [])).untop' 0) ∧
        node2.lateStart = node2.lateFinish - node2.duration ∧
        node2.slack = node2.lateStart - node2.earlyStart ∧
        node2.isCritical = decide (|node2.slack| < 1 / 100)) := by
  have htm_isSome : ∀ v, (mapGet (buildTaskMap tasks) v).isSome ↔ ∃ t ∈ tasks, t.id = v := by
    intro v
    rw [show buildTaskMap tasks = tasks.foldl (fun m t => mapSet m t.id t) [] from rfl]
    rw [foldBuild_get_isSome PertTask.id (fun t => t) tasks [] v]
    simp [mapGet]
  have hnm_isSome : ∀ v, (mapGet (buildNodeMap tasks) v).isSome ↔ ∃ t ∈ tasks, t.id = v := by
    intro v
    rw [show buildNodeMap tasks = tasks.foldl (fun m t => mapSet m t.id (initNode t)) []
      from rfl]
    rw [foldBuild_get_isSome PertTask.id initNode tasks [] v]
    simp [mapGet]
  have htm_get : ∀ t ∈ tasks, mapGet (buildTaskMap tasks) t.id = some t := by
    intro t ht
    exact foldBuild_get_of_mem_nodup PertTask.id (fun t => t) tasks [] hnd t ht
  have hnm_get : ∀ t ∈ tasks, mapGet (buildNodeMap tasks) t.id = some (initNode t) := by
    intro t ht
    exact foldBuild_get_of_mem_nodup PertTask.id initNode tasks [] hnd t ht
  have Hdeps_tm : ∀ v task, mapGet (buildTaskMap tasks) v = some task →
      ∀ d ∈ task.dependencies, (mapGet (buildTaskMap tasks) d).isSome := by
    intro v task hget d hd
    have hmem := mapGet_eq_some_mem hget
    rcases foldBuild_mem_values PertTask.id (fun t => t) tasks [] _ hmem with h0 | ⟨t, ht, he⟩
    · cases h0
    · have hte : task = t := congrArg Prod.snd he
      subst hte
      obtain ⟨u, hu, hid⟩ := hdang task ht d hd
      rw [htm_isSome]
      exact ⟨u, hu, hid⟩
  obtain ⟨order, horder⟩ := not_hasCycle_topologicalSort_some tasks hacyc
  obtain ⟨hOnd, hO2, hO3⟩ := topologicalSort_some_spec tasks order horder
  have hO4 : ∀ v ∈ order, (mapGet (buildTaskMap tasks) v).isSome :=
    topologicalSort_order_present tasks order horder Hdeps_tm
  have hO4nm : ∀ v ∈ order, (mapGet (buildNodeMap tasks) v).isSome := by
    intro v hv
    rw [hnm_isSome]
    exact (htm_isSome v).mp (hO4 v hv)
  obtain ⟨m1, hfwd⟩ := forwardPass_total order (buildNodeMap tasks) hO4nm
  have hm1_isSome : ∀ x, (mapGet m1 x).isSome ↔ (mapGet (buildNodeMap tasks) x).isSome :=
    fun x => isSome_of_map_proj
      (forwardPass_get_proj (fun _ => Unit.unit) (fun _ _ _ => rfl) order _ m1 hfwd x)
  obtain ⟨m2, hbwd⟩ := backwardPass_total (buildSuccessorsMap tasks) (projectDurationOf m1)
    order.reverse m1
    (by
      intro id hid
      rw [hm1_isSome]
      exact hO4nm id (List.mem_reverse.mp hid))
  have hm2_isSome_m1 : ∀ x, (mapGet m2 x).isSome ↔ (mapGet m1 x).isSome :=
    fun x => isSome_of_map_proj
      (backwardPass_get_proj (fun _ => Unit.unit) (fun _ _ _ _ _ => rfl) _ _ _ m1 m2 hbwd x)
  have hm2_isSome : ∀ v, (mapGet m2 v).isSome ↔ ∃ t ∈ tasks, t.id = v := by
    intro v
    rw [hm2_isSome_m1, hm1_isSome, hnm_isSome]
  have hcal : calculateCPM tasks = some (m2.map (fun p => p.2)) := by
    unfold calculateCPM
    rw [horder]
    dsimp only
    rw [hfwd]
    dsimp only
    rw [hbwd]
  have hside_f : ∀ i ∈ order, ∀ node, mapGet (buildNodeMap tasks) i = some node →
      ∀ d ∈ node.dependencies,
        (∃ l1 l2, order = l1 ++ i :: l2 ∧ d ∈ l1) ∨ d ∉ order := by
    intro i hi node hnode d hd
    left
    obtain ⟨t, ht, hti⟩ := (htm_isSome i).mp (hO4 i hi)
    have hnm_t := hnm_get t ht
    rw [hti] at hnm_t
    rw [hnm_t] at hnode
    have hne : node = initNode t := (Option.some.injEq _ _ ▸ hnode).symm
    have hdt : d ∈ t.dependencies := by
      have : node.dependencies = t.dependencies := by rw [hne]; rfl
      exact this ▸ hd
    have hio : i ∈ order := hi
    obtain ⟨l1, l2, hdec⟩ := List.append_of_mem hio
    have htm_t := htm_get t ht
    rw [hti] at htm_t
    exact ⟨l1, l2, hdec, hO3 l1 i l2 t hdec htm_t d hdt⟩
  have hfspec := forwardPass_spec order (buildNodeMap tasks) m1 hfwd hOnd hside_f
  have hside_b : ∀ i ∈ order.reverse, ∀ x ∈ (mapGet (buildSuccessorsMap tasks) i).getD [],
      (∃ l1 l2, order.reverse = l1 ++ i :: l2 ∧ x ∈ l1) ∨ x ∉ order.reverse := by
    intro i hi x hx
    left
    have hi_ord : i ∈ order := List.mem_reverse.mp hi
    have hipres : ∃ t ∈ tasks, t.id = i := (htm_isSome i).mp (hO4 i hi_ord)
    rw [buildSuccessorsMap_get_present tasks i hipres] at hx
    simp only [Option.getD_some] at hx
    obtain ⟨t, ht, htx, hidep⟩ := mem_succContrib.mp hx
    have hxo : x ∈ order := htx ▸ hO2 t ht
    obtain ⟨l1, l2, hdec⟩ := List.append_of_mem hxo
    have htm_t := htm_get t ht
    rw [htx] at htm_t
    have hil1 : i ∈ l1 := hO3 l1 x l2 t hdec htm_t i hidep
    exact reverse_decomp_succ hdec hil1
  have hbspec := backwardPass_spec (buildSuccessorsMap tasks) (projectDurationOf m1)
    order.reverse m1 m2 hbwd (List.nodup_reverse.mpr hOnd) hside_b
  have hEF2 : ∀ x, (mapGet m2 x).map (fun n => n.earlyFinish) =
      (mapGet m1 x).map (fun n => n.earlyFinish) :=
    backwardPass_get_proj (fun n => n.earlyFinish) (fun _ _ _ _ _ => rfl) _ _ _ m1 m2 hbwd
  have hk1 : m1.map Prod.fst = (buildNodeMap tasks).map Prod.fst :=
    forwardPass_keys_eq order _ m1 hfwd
  have hk2 : m2.map Prod.fst = m1.map Prod.fst :=
    backwardPass_keys_eq (buildSuccessorsMap tasks) (projectDurationOf m1) order.reverse m1 m2 hbwd
  have hnm_keys_nodup : ((buildNodeMap tasks).map Prod.fst).Nodup :=
    foldBuild_keys_nodup PertTask.id initNode tasks [] (by simp)
  have hm1_keys_nodup : (m1.map Prod.fst).Nodup := hk1 ▸ hnm_keys_nodup
  have hm2_keys_nodup : (m2.map Prod.fst).Nodup := hk2 ▸ hm1_keys_nodup
  have hprojD : projectDurationOf m1 = projectDurationOf m2 := by
    apply projectDurationOf_congr
    apply map_proj_eq_of_get (fun n => n.earlyFinish) m1 m2 (hk2.symm) hm1_keys_nodup
    intro k
    exact (hEF2 k).symm
  have hid_nm : ∀ p ∈ buildNodeMap tasks, p.2.id = p.1 := by
    intro p hp
    rcases foldBuild_mem_values PertTask.id initNode tasks [] p hp with h0 | ⟨t, _, he⟩
    · cases h0
    · rw [he]
      rfl
  have hid_m2 : ∀ p ∈ m2, p.2.id = p.1 :=
    backwardPass_id_inv _ _ order.reverse m1 m2 hbwd
      (forwardPass_id_inv order _ m1 hfwd hid_nm)
  have horder_iff : ∀ v, v ∈ order ↔ (mapGet m2 v).isSome := by
    intro v
    constructor
    · intro hv
      rw [hm2_isSome_m1, hm1_isSome]
      exact hO4nm v hv
    · intro hv
      obtain ⟨t, ht, hti⟩ := (hm2_isSome v).mp hv
      exact hti ▸ hO2 t ht
  have hdur : ∀ t ∈ tasks, ∃ node, mapGet m2 t.id = some node ∧
      node.toPertTask = t ∧ node.duration = calculateExpectedTime t := by
    intro t ht
    have hproj : (mapGet m2 t.id).map (fun n => (n.toPertTask, n.duration)) =
        (mapGet (buildNodeMap tasks) t.id).map (fun n => (n.toPertTask, n.duration)) := by
      rw [backwardPass_get_proj (fun n => (n.toPertTask, n.duration))
        (fun _ _ _ _ _ => rfl) _ _ _ m1 m2 hbwd t.id]
      exact forwardPass_get_proj (fun n => (n.toPertTask, n.duration))
        (fun _ _ _ => rfl) order _ m1 hfwd t.id
    rw [hnm_get t ht] at hproj
    cases hget2 : mapGet m2 t.id with
    | none => rw [hget2] at hproj; cases hproj
    | some node =>
      rw [hget2] at hproj
      dsimp only [Option.map] at hproj
      simp only [Option.some.injEq, Prod.mk.injEq] at hproj
      exact ⟨node, rfl, hproj.1, hproj.2⟩
  refine ⟨order, m2, horder, hcal, hOnd, hO2, hO3, hm2_isSome, horder_iff,
    hm2_keys_nodup, hid_m2, hdur, ?_⟩
  intro j node2 hget2
  have hj_ord : j ∈ order := (horder_iff j).mpr (by simp [hget2])
  obtain ⟨node0, hnode0, hnode1⟩ := hfspec j hj_ord
  obtain ⟨node1', lf, hnode1', hlf, hm2j⟩ := hbspec j (List.mem_reverse.mpr hj_ord)
  rw [hnode1] at hnode1'
  have hne1 : node1' = { node0 with
      earlyStart := maxPredecessorEF m1 node0.dependencies,
      earlyFinish := maxPredecessorEF m1 node0.dependencies + node0.duration } :=
    (Option.some.injEq _ _ ▸ hnode1').symm
  rw [hget2] at hm2j
  have hne2 : node2 = { node1' with
      lateFinish := lf,
      lateStart := lf - node1'.duration,
      slack := lf - node1'.duration - node1'.earlyStart,
      isCritical := decide (|lf - node1'.duration - node1'.earlyStart| < 1 / 100) } :=
    Option.some.injEq _ _ ▸ hm2j
  have hdeps_eq : node2.dependencies = node0.dependencies := by
    rw [hne2, hne1]
  have hdur_eq : node2.duration = node0.duration := by
    rw [hne2, hne1]
  have hES : node2.earlyStart = maxPredecessorEF m1 node0.dependencies := by
    rw [hne2, hne1]
  have hEF : node2.earlyFinish = maxPredecessorEF m1 node0.dependencies + node0.duration := by
    rw [hne2, hne1]
  have hLF : node2.lateFinish = lf := by rw [hne2]
  have hLS : node2.lateStart = lf - node1'.duration := by rw [hne2]
  have hSL : node2.slack = lf - node1'.duration - node1'.earlyStart := by rw [hne2]
  have hCR : node2.isCritical =
      decide (|lf - node1'.duration - node1'.earlyStart| < 1 / 100) := by rw [hne2]
  have hdur1' : node1'.duration = node0.duration := by rw [hne1]
  have hES1' : node1'.earlyStart = maxPredecessorEF m1 node0.dependencies := by rw [hne1]
  have hmaxcongr : maxPredecessorEF m1 node0.dependencies =
      maxPredecessorEF m2 node0.dependencies := by
    apply maxPredecessorEF_congr
    intro d _
    exact (hEF2 d).symm
  refine ⟨?_, ?_, ?_, ?_, ?_, ?_⟩
  · rw [hES, hdeps_eq, hmaxcongr]
  · rw [hEF, hES, hdur_eq]
  · rw [hLF, hlf, hprojD]
  · rw [hLS, hLF, hdur_eq, hdur1']
  · rw [hSL, hLS, hES, hdur1', hES1']
  · rw [hCR, hSL]

/-! ## Fold bounds and attainment -/

theorem maxfold_acc_le (m : List (String × PertNode)) :
    ∀ (l : List String) (acc : ℚ),
      acc ≤ l.foldl (fun acc depId =>
        match mapGet m depId with
        | some depNode => max acc depNode.earlyFinish
        | none => acc) acc := by
  intro l
  induction l with
  | nil => intro acc; exact le_refl acc
  | cons d ds ih =>
    intro acc
    simp only [List.foldl_cons]
    cases hget : mapGet m d with
    | none => exact ih acc
    | some dn =>
      dsimp only
      exact le_trans (le_max_left acc dn.earlyFinish) (ih _)

theorem le_maxPredecessorEF (m : List (String × PertNode)) {deps : List String}
    {d : String} {dn : PertNode} (hd : d ∈ deps) (hget : mapGet m d = some dn) :
    dn.earlyFinish ≤ maxPredecessorEF m deps := by
  unfold maxPredecessorEF
  have aux : ∀ (l : List String), d ∈ l → ∀ acc : ℚ,
      dn.earlyFinish ≤ l.foldl (fun acc depId =>
        match mapGet m depId with
        | some depNode => max acc depNode.earlyFinish
        | none => acc) acc := by
    intro l
    induction l with
    | nil => intro h; cases h
    | cons x xs ih =>
      intro hmem acc
      simp only [List.foldl_cons]
      rcases List.mem_cons.mp hmem with rfl | hmem2
      · rw [hget]
        dsimp only
        exact le_trans (le_max_right acc dn.earlyFinish) (maxfold_acc_le m xs _)
      · cases hget2 : mapGet m x with
        | none => exact ih hmem2 acc
        | some xn => exact ih hmem2 _
  exact aux deps hd 0

theorem maxfold_attained (m : List (String × PertNode)) {deps : List String}
    (hne : deps ≠ [])
    (hsome : ∀ d ∈ deps, ∃ dn, mapGet m d = some dn)
    (hpos : ∀ d dn, d ∈ deps → mapGet m d = some dn → 0 ≤ dn.earlyFinish) :
    ∃ d dn, d ∈ deps ∧ mapGet m d = some dn ∧
      maxPredecessorEF m deps = dn.earlyFinish := by
  unfold maxPredecessorEF
  have aux : ∀ (l : List String), (∀ d ∈ l, ∃ dn, mapGet m d = some dn) → ∀ acc : ℚ,
      (l.foldl (fun acc depId =>
        match mapGet m depId with
        | some depNode => max acc depNode.earlyFinish
        | none => acc) acc = acc) ∨
      (∃ d dn, d ∈ l ∧ mapGet m d = some dn ∧
        l.foldl (fun acc depId =>
          match mapGet m depId with
          | some depNode => max acc depNode.earlyFinish
          | none => acc) acc = dn.earlyFinish) := by
    intro l
    induction l with
    | nil => intro _ acc; exact Or.inl rfl
    | cons x xs ih =>
      intro hs acc
      obtain ⟨xn, hxn⟩ := hs x (List.mem_cons_self _ _)
      simp only [List.foldl_cons, hxn]
      rcases ih (fun d hd => hs d (List.mem_cons_of_mem _ hd)) (max acc xn.earlyFinish) with
        he | ⟨d, dn, hd, hdn, he⟩
      · rw [he]
        rcases le_total acc xn.earlyFinish with hle | hle
        · exact Or.inr ⟨x, xn, List.mem_cons_self _ _, hxn, max_eq_right hle⟩
        · exact Or.inl (max_eq_left hle)
      · exact Or.inr ⟨d, dn, List.mem_cons_of_mem _ hd, hdn, he⟩
  rcases aux deps hsome 0 with he | ⟨d, dn, hd, hdn, he⟩
  · cases deps with
    | nil => exact absurd rfl hne
    | cons x xs =>
      obtain ⟨xn, hxn⟩ := hsome x (List.mem_cons_self _ _)
      have hub := le_maxPredecessorEF m (List.mem_cons_self x xs) hxn
      unfold maxPredecessorEF at hub
      rw [he] at hub
      have hlb : (0 : ℚ) ≤ xn.earlyFinish :=
        hpos x xn (List.mem_cons_self _ _) hxn
      have hzero : xn.earlyFinish = 0 := le_antisymm hub hlb
      refine ⟨x, xn, List.mem_cons_self _ _, hxn, ?_⟩
      rw [he, hzero]
  · exact ⟨d, dn, hd, hdn, he⟩

theorem minfold_acc_le (m : List (String × PertNode)) :
    ∀ (l : List String) (acc : WithTop ℚ),
      l.foldl (fun acc succId =>
        match mapGet m succId with
        | some succNode => min acc (succNode.lateStart : WithTop ℚ)
        | none => acc) acc ≤ acc := by
  intro l
  induction l with
  | nil => intro acc; exact le_refl acc
  | cons x xs ih =>
    intro acc
    simp only [List.foldl_cons]
    cases hget : mapGet m x with
    | none => exact ih acc
    | some xn =>
      dsimp only
      exact le_trans (ih _) (min_le_left acc _)

theorem minSuccessorLS_le (m : List (String × PertNode)) {succs : List String}
    {x : String} {xn : PertNode} (hx : x ∈ succs) (hget : mapGet m x = some xn) :
    minSuccessorLS m succs ≤ (xn.lateStart : WithTop ℚ) := by
  unfold minSuccessorLS
  have aux : ∀ (l : List String), x ∈ l → ∀ acc : WithTop ℚ,
      l.foldl (fun acc succId =>
        match mapGet m succId with
        | some succNode => min acc (succNode.lateStart : WithTop ℚ)
        | none => acc) acc ≤ (xn.lateStart : WithTop ℚ) := by
    intro l
    induction l with
    | nil => intro h; cases h
    | cons y ys ih =>
      intro hmem acc
      simp only [List.foldl_cons]
      rcases List.mem_cons.mp hmem with rfl | hmem2
      · rw [hget]
        dsimp only
        exact le_trans (minfold_acc_le m ys _) (min_le_right acc _)
      · cases hget2 : mapGet m y with
        | none => exact ih hmem2 acc
        | some yn => exact ih hmem2 _
  exact aux succs hx ⊤

theorem minfold_attained (m : List (String × PertNode)) {succs : List String}
    (hne : succs ≠ [])
    (hsome : ∀ x ∈ succs, ∃ xn, mapGet m x = some xn) :
    ∃ x xn, x ∈ succs ∧ mapGet m x = some xn ∧
      minSuccessorLS m succs = (xn.lateStart : WithTop ℚ) := by
  unfold minSuccessorLS
  have aux : ∀ (l : List String), ∀ acc : WithTop ℚ,
      (l.foldl (fun acc succId =>
        match mapGet m succId with
        | some succNode => min acc (succNode.lateStart : WithTop ℚ)
        | none => acc) acc = acc) ∨
      (∃ x xn, x ∈ l ∧ mapGet m x = some xn ∧
        l.foldl (fun acc succId =>
          match mapGet m succId with
          | some succNode => min acc (succNode.lateStart : WithTop ℚ)
          | none => acc) acc = (xn.lateStart : WithTop ℚ)) := by
    intro l
    induction l with
    | nil => intro acc; exact Or.inl rfl
    | cons y ys ih =>
      intro acc
      simp only [List.foldl_cons]
      cases hget : mapGet m y with
      | none =>
        rcases ih acc with he | ⟨x, xn, hx, hxn, he⟩
        · exact Or.inl he
        · exact Or.inr ⟨x, xn, List.mem_cons_of_mem _ hx, hxn, he⟩
      | some yn =>
        dsimp only
        rcases ih (min acc (yn.lateStart : WithTop ℚ)) with he | ⟨x, xn, hx, hxn, he⟩
        · rw [he]
          rcases le_total acc (yn.lateStart : WithTop ℚ) with hle | hle
          · exact Or.inl (min_eq_left hle)
          · exact Or.inr ⟨y, yn, List.mem_cons_self _ _, hget, min_eq_right hle⟩
        · exact Or.inr ⟨x, xn, List.mem_cons_of_mem _ hx, hxn, he⟩
  rcases aux succs ⊤ with he | ⟨x, xn, hx, hxn, he⟩
  · cases succs with
    | nil => exact absurd rfl hne
    | cons y ys =>
      obtain ⟨yn, hyn⟩ := hsome y (List.mem_cons_self _ _)
      have hub := minSuccessorLS_le m (List.mem_cons_self y ys) hyn
      unfold minSuccessorLS at hub
      rw [he] at hub
      exact absurd hub (WithTop.not_top_le_coe _)
  · exact ⟨x, xn, hx, hxn, he⟩

theorem projD_acc_le :
    ∀ (l : List (String × PertNode)) (acc : ℚ),
      acc ≤ l.foldl (fun acc p => max acc p.2.earlyFinish) acc := by
  intro l
  induction l with
  | nil => intro acc; exact le_refl acc
  | cons p t ih =>
    intro acc
    simp only [List.foldl_cons]
    exact le_trans (le_max_left acc _) (ih _)

theorem projD_ge {m : List (String × PertNode)} {p : String × PertNode}
    (hp : p ∈ m) : p.2.earlyFinish ≤ projectDurationOf m := by
  unfold projectDurationOf
  have aux : ∀ (l : List (String × PertNode)), p ∈ l → ∀ acc : ℚ,
      p.2.earlyFinish ≤ l.foldl (fun acc q => max acc q.2.earlyFinish) acc := by
    intro l
    induction l with
    | nil => intro h; cases h
    | cons q t ih =>
      intro hmem acc
      simp only [List.foldl_cons]
      rcases List.mem_cons.mp hmem with rfl | hmem2
      · exact le_trans (le_max_right acc _) (projD_acc_le t _)
      · exact ih hmem2 _
  exact aux m hp 0

theorem projD_attained {m : List (String × PertNode)} (hne : m ≠ [])
    (hpos : ∀ p ∈ m, 0 ≤ p.2.earlyFinish) :
    ∃ p ∈ m, projectDurationOf m = p.2.earlyFinish := by
  unfold projectDurationOf
  have aux : ∀ (l : List (String × PertNode)), ∀ acc : ℚ,
      (l.foldl (fun acc q => max acc q.2.earlyFinish) acc = acc) ∨
      (∃ p ∈ l, l.foldl (fun acc q => max acc q.2.earlyFinish) acc = p.2.earlyFinish) := by
    intro l
    induction l with
    | nil => intro acc; exact Or.inl rfl
    | cons q t ih =>
      intro acc
      simp only [List.foldl_cons]
      rcases ih (max acc q.2.earlyFinish) with he | ⟨p, hp, he⟩
      · rw [he]
        rcases le_total acc q.2.earlyFinish with hle | hle
        · exact Or.inr ⟨q, List.mem_cons_self _ _, max_eq_right hle⟩
        · exact Or.inl (max_eq_left hle)
      · exact Or.inr ⟨p, List.mem_cons_of_mem _ hp, he⟩
  rcases aux m 0 with he | ⟨p, hp, he⟩
  · cases m with
    | nil => exact absurd rfl hne
    | cons q t =>
      have hub := projD_ge (List.mem_cons_self q t)
      unfold projectDurationOf at hub
      rw [he] at hub
      have hlb : (0 : ℚ) ≤ q.2.earlyFinish := hpos q (List.mem_cons_self _ _)
      refine ⟨q, List.mem_cons_self _ _, ?_⟩
      rw [he]
      exact (le_antisymm hub hlb).symm
  · exact ⟨p, hp, he⟩

theorem mapGet_isSome_iff_mem_keys {α : Type} (m : List (String × α)) (k : String) :
    (mapGet m k).isSome ↔ k ∈ m.map Prod.fst := by
  constructor
  · intro h
    cases hg : mapGet m k with
    | none => rw [hg] at h; cases h
    | some v =>
      exact List.mem_map.mpr ⟨(k, v), mapGet_eq_some_mem hg, rfl⟩
  · intro h
    by_contra hc
    rw [Option.not_isSome_iff_eq_none] at hc
    rcases List.mem_map.mp h with ⟨p, hp, he⟩
    unfold mapGet at hc
    cases hf : m.find? (fun q => q.1 = k) with
    | some q => rw [hf] at hc; cases hc
    | none =>
      have := List.find?_eq_none.mp hf p hp
      simp [he] at this

theorem map_repair {m : List (String × PertNode)}
    (h : ∀ p ∈ m, p.2.id = p.1) :
    (m.map (fun p => p.2)).map (fun n => (n.id, n)) = m := by
  rw [List.map_map]
  have : m.map ((fun n : PertNode => (n.id, n)) ∘ (fun p => p.2)) = m.map id := by
    apply List.map_congr_left
    intro p hp
    simp only [Function.comp, id]
    exact Prod.ext (h p hp) rfl
  rw [this, List.map_id]

theorem find?_first {α : Type} (p : α → Bool) :
    ∀ (l : List α) (a : α), l.find? p = some a →
      ∃ u w, l = u ++ a :: w ∧ (∀ b ∈ u, p b = false) ∧ p a = true := by
  intro l
  induction l with
  | nil => intro a h; cases h
  | cons x xs ih =>
    intro a h
    cases hx : p x with
    | true =>
      rw [List.find?_cons_of_pos _ hx] at h
      cases h
      exact ⟨[], xs, rfl, fun b hb => absurd hb (List.not_mem_nil b), hx⟩
    | false =>
      rw [List.find?_cons_of_neg _ (by simp [hx])] at h
      rcases ih a h with ⟨u, w, he, hu, ha⟩
      exact ⟨x :: u, w, by rw [he]; rfl,
        fun b hb => by
          rcases List.mem_cons.mp hb with rfl | hb2
          · exact hx
          · exact hu b hb2, ha⟩

theorem decomp_unique {l u w u2 w2 : List String} {a : String} (hnd : l.Nodup)
    (h1 : l = u ++ a :: w) (h2 : l = u2 ++ a :: w2) : u = u2 ∧ w = w2 := by
  have hau : a ∉ u := by
    intro hc
    rw [h1, List.nodup_append] at hnd
    exact hnd.2.2 hc (List.mem_cons_self _ _)
  have hau2 : a ∉ u2 := by
    intro hc
    rw [h2, List.nodup_append] at hnd
    exact hnd.2.2 hc (List.mem_cons_self _ _)
  have hlen : u.length = u2.length := by
    have e1 : l.indexOf a = u.length := by
      rw [h1, List.indexOf_append_of_not_mem hau]
      simp [List.indexOf_cons_self]
    have e2 : l.indexOf a = u2.length := by
      rw [h2, List.indexOf_append_of_not_mem hau2]
      simp [List.indexOf_cons_self]
    rw [← e1, e2]
  have := h1.symm.trans h2
  rcases List.append_inj this hlen with ⟨he1, he2⟩
  exact ⟨he1, by injection he2⟩

theorem head?_append_left {α : Type} {l : List α} (l2 : List α) (h : l ≠ []) :
    (l ++ l2).head? = l.head? := by
  cases l with
  | nil => exact absurd rfl h
  | cons x xs => rfl

theorem succs_before_reverse (tasks : List PertTask) (order : List String)
    (hnd : (tasks.map PertTask.id).Nodup)
    (hO2 : ∀ t ∈ tasks, t.id ∈ order)
    (hO3 : ∀ l1 v l2 task, order = l1 ++ v :: l2 →
      mapGet (buildTaskMap tasks) v = some task → ∀ d ∈ task.dependencies, d ∈ l1)
    {j x : String}
    (hx : ∃ t ∈ tasks, t.id = x ∧ j ∈ t.dependencies) :
    ∃ L1 L2, order.reverse = L1 ++ j :: L2 ∧ x ∈ L1 := by
  obtain ⟨t, ht, hid, hdep⟩ := hx
  have hxo : x ∈ order := hid ▸ hO2 t ht
  obtain ⟨l1, l2, hdec⟩ := List.append_of_mem hxo
  have htm : mapGet (buildTaskMap tasks) x = some t := by
    have := foldBuild_get_of_mem_nodup PertTask.id (fun t => t) tasks [] hnd t ht
    rw [hid] at this
    exact this
  have hj1 : j ∈ l1 := hO3 l1 x l2 t hdec htm j hdep
  exact reverse_decomp_succ hdec hj1

theorem ef_le_lf (tasks : List PertTask) (order : List String)
    (m2 : List (String × PertNode))
    (hnd : (tasks.map PertTask.id).Nodup)
    (hOnd : order.Nodup)
    (hO2 : ∀ t ∈ tasks, t.id ∈ order)
    (hO3 : ∀ l1 v l2 task, order = l1 ++ v :: l2 →
      mapGet (buildTaskMap tasks) v = some task → ∀ d ∈ task.dependencies, d ∈ l1)
    (hm2_isSome : ∀ v, (mapGet m2 v).isSome ↔ ∃ t ∈ tasks, t.id = v)
    (hF : ∀ t ∈ tasks, ∃ node, mapGet m2 t.id = some node ∧
      node.toPertTask = t ∧ node.duration = calculateExpectedTime t)
    (hrec : ∀ j node2, mapGet m2 j = some node2 →
      node2.earlyStart = maxPredecessorEF m2 node2.dependencies ∧
      node2.earlyFinish = node2.earlyStart + node2.duration ∧
      node2.lateFinish = (if ((mapGet (buildSuccessorsMap tasks) j).getD []).isEmpty
        then projectDurationOf m2
        else (minSuccessorLS m2
          ((mapGet (buildSuccessorsMap tasks) j).getD [])).untop' 0) ∧
      node2.lateStart = node2.lateFinish - node2.duration ∧
      node2.slack = node2.lateStart - node2.earlyStart ∧
      node2.isCritical = decide (|node2.slack| < 1 / 100)) :
    ∀ j node, mapGet m2 j = some node → node.earlyFinish ≤ node.lateFinish := by
  have main : ∀ k : ℕ, ∀ j node, order.reverse.indexOf j = k →
      mapGet m2 j = some node → node.earlyFinish ≤ node.lateFinish := by
    intro k
    induction k using Nat.strong_induction_on with
    | _ k ih =>
      intro j node hidx hget
      have hpres : ∃ t ∈ tasks, t.id = j := by
        refine (hm2_isSome j).mp ?_
        rw [hget]; rfl
      have hsucc_eq : mapGet (buildSuccessorsMap tasks) j = some (succContrib j tasks) :=
        buildSuccessorsMap_get_present tasks j hpres
      obtain ⟨hES, hEF, hLF, hLS, hslack, hcrit⟩ := hrec j node hget
      rw [hsucc_eq] at hLF
      simp only [Option.getD_some] at hLF
      cases hsl : succContrib j tasks with
      | nil =>
        rw [hsl] at hLF
        simp only [List.isEmpty_nil, if_true] at hLF
        rw [hLF]
        exact projD_ge (mapGet_eq_some_mem hget)
      | cons s ss =>
        rw [hsl] at hLF
        simp only [List.isEmpty_cons, if_false, Bool.false_eq_true] at hLF
        have hsome : ∀ x ∈ s :: ss, ∃ xn, mapGet m2 x = some xn := by
          intro x hxm
          have hxp : ∃ t ∈ tasks, t.id = x := by
            rw [← hsl] at hxm
            rcases mem_succContrib.mp hxm with ⟨t, ht, hid, _⟩
            exact ⟨t, ht, hid⟩
          have := (hm2_isSome x).mpr hxp
          cases hg : mapGet m2 x with
          | none => rw [hg] at this; cases this
          | some xn => exact ⟨xn, rfl⟩
        obtain ⟨x, xn, hxmem, hxget, hmin⟩ :=
          minfold_attained m2 (by simp : (s :: ss : List String) ≠ []) hsome
        rw [hmin, WithTop.untop'_coe] at hLF
        have hxc : x ∈ succContrib j tasks := by rw [hsl]; exact hxmem
        rcases mem_succContrib.mp hxc with ⟨t, ht, htid, hjdep⟩
        obtain ⟨node', hget', htp, _⟩ := hF t ht
        rw [htid] at hget'
        have hxe : node' = xn := by
          rw [hget'] at hxget
          exact Option.some.inj hxget
        have hjxn : j ∈ xn.dependencies := by
          rw [← hxe]
          show j ∈ node'.toPertTask.dependencies
          rw [htp]
          exact hjdep
        obtain ⟨hxES, hxEF, _, hxLS, _, _⟩ := hrec x xn hxget
        have hdecomp := succs_before_reverse tasks order hnd hO2 hO3 ⟨t, ht, htid, hjdep⟩
        obtain ⟨L1, L2, hrev, hxL1⟩ := hdecomp
        have hidxlt : order.reverse.indexOf x < order.reverse.indexOf j :=
          index_lt_of_before (List.nodup_reverse.mpr hOnd) hrev hxL1
        rw [hidx] at hidxlt
        have hih := ih _ hidxlt x xn rfl hxget
        have h1 : node.earlyFinish ≤ xn.earlyStart := by
          rw [hxES]
          exact le_maxPredecessorEF m2 hjxn hget
        have h2 : xn.earlyStart = xn.earlyFinish - xn.duration := by
          rw [hxEF]; ring
        have h3 : xn.earlyFinish - xn.duration ≤ xn.lateFinish - xn.duration := by
          linarith
        rw [hLF, hxLS]
        linarith
  intro j node hget
  exact main (order.reverse.indexOf j) j node rfl hget

/-! ## Generic field-invariant preservation through the passes -/

theorem forwardPass_inv (P : PertNode → Prop)
    (hP : ∀ (node : PertNode) (es ef : ℚ), P node →
      P { node with earlyStart := es, earlyFinish := ef }) :
    ∀ (ids : List String) (m m' : List (String × PertNode)),
      forwardPass ids m = some m' → (∀ p ∈ m, P p.2) →
      ∀ p ∈ m', P p.2 := by
  intro ids
  induction ids with
  | nil =>
    intro m m' h hm
    rw [forwardPass] at h
    cases h
    exact hm
  | cons id rest ih =>
    intro m m' h hm
    rw [forwardPass] at h
    cases hget : mapGet m id with
    | none => rw [hget] at h; cases h
    | some node =>
      rw [hget] at h
      dsimp only at h
      apply ih _ _ h
      intro p hp
      rcases mem_mapSet hp with hp2 | hp2
      · exact hm p hp2
      · subst hp2
        exact hP node _ _ (hm (id, node) (mapGet_eq_some_mem hget))

theorem backwardPass_inv (P : PertNode → Prop)
    (hP : ∀ (node : PertNode) (lf ls sl : ℚ) (cr : Bool), P node →
      P { node with lateFinish := lf, lateStart := ls, slack := sl, isCritical := cr }) :
    ∀ (succMap : List (String × List String)) (projD : ℚ)
      (ids : List String) (m m' : List (String × PertNode)),
      backwardPass succMap projD ids m = some m' → (∀ p ∈ m, P p.2) →
      ∀ p ∈ m', P p.2 := by
  intro succMap projD ids
  induction ids with
  | nil =>
    intro m m' h hm
    rw [backwardPass] at h
    cases h
    exact hm
  | cons id rest ih =>
    intro m m' h hm
    rw [backwardPass] at h
    cases hget : mapGet m id with
    | none => rw [hget] at h; cases h
    | some node =>
      rw [hget] at h
      dsimp only at h
      apply ih _ _ h
      intro p hp
      rcases mem_mapSet hp with hp2 | hp2
      · exact hm p hp2
      · subst hp2
        exact hP node _ _ _ _ (hm (id, node) (mapGet_eq_some_mem hget))

/-! ## The cyclic branch of `calculateCPM` -/

theorem cpm_cyclic_output (tasks : List PertTask) (h : HasCycle tasks) :
    calculateCPM tasks = some ((buildNodeMap tasks).map (fun p => p.2)) := by
  have hs := hasCycle_topologicalSort_null tasks h
  unfold calculateCPM
  rw [hs]

theorem buildNodeMap_mem {tasks : List PertTask} {p : String × PertNode}
    (hp : p ∈ buildNodeMap tasks) : ∃ t ∈ tasks, p = (t.id, initNode t) := by
  rcases foldBuild_mem_values PertTask.id initNode tasks [] p hp with h0 | h
  · cases h0
  · exact h

theorem buildNodeMap_keys_nodup (tasks : List PertTask) :
    ((buildNodeMap tasks).map Prod.fst).Nodup :=
  foldBuild_keys_nodup PertTask.id initNode tasks [] List.nodup_nil

theorem buildNodeMap_key_iff (tasks : List PertTask) (v : String) :
    v ∈ (buildNodeMap tasks).map Prod.fst ↔ ∃ t ∈ tasks, t.id = v := by
  rw [← mapGet_isSome_iff_mem_keys]
  rw [show buildNodeMap tasks = tasks.foldl (fun m t => mapSet m t.id (initNode t)) []
    from rfl]
  rw [foldBuild_get_isSome PertTask.id initNode tasks [] v]
  simp [mapGet]

theorem buildNodeMap_values_ids (tasks : List PertTask) :
    ((buildNodeMap tasks).map (fun p => p.2)).map (fun n => n.id) =
      (buildNodeMap tasks).map Prod.fst := by
  rw [List.map_map]
  apply List.map_congr_left
  intro p hp
  rcases buildNodeMap_mem hp with ⟨t, _, rfl⟩
  rfl

/-! ## Claim C7: expected-duration formula -/

/-- **C7.** For every task, the expected duration computed for its node equals
`(optimistic + 4 * likely + pessimistic) / 6` exactly, with no validation of
the relative magnitudes of the three estimates: whenever `calculateCPM`
returns a node list (including for negative or zero estimates, which
propagate through the formula unchanged), every output node's `duration`
satisfies the formula over its own estimate fields. -/
theorem C7_expected_duration_formula (tasks : List PertTask) (out : List PertNode)
    (h : calculateCPM tasks = some out) :
    (∀ task : PertTask, calculateExpectedTime task =
      (task.optimistic + 4 * task.likely + task.pessimistic) / 6) ∧
    ∀ n ∈ out, n.duration = (n.optimistic + 4 * n.likely + n.pessimistic) / 6 := by
  refine ⟨fun task => rfl, ?_⟩
  have hbase : ∀ p ∈ buildNodeMap tasks,
      p.2.duration = (p.2.optimistic + 4 * p.2.likely + p.2.pessimistic) / 6 := by
    intro p hp
    rcases buildNodeMap_mem hp with ⟨t, _, rfl⟩
    rfl
  unfold calculateCPM at h
  cases hts : topologicalSort tasks with
  | none => rw [hts] at h; cases h
  | some r =>
    cases r with
    | none =>
      rw [hts] at h
      dsimp only at h
      cases h
      intro n hn
      rcases List.mem_map.mp hn with ⟨p, hp, rfl⟩
      exact hbase p hp
    | some order =>
      rw [hts] at h
      dsimp only at h
      cases hfwd : forwardPass order (buildNodeMap tasks) with
      | none => rw [hfwd] at h; cases h
      | some m1 =>
        rw [hfwd] at h
        dsimp only at h
        cases hbwd : backwardPass (buildSuccessorsMap tasks) (projectDurationOf m1)
            order.reverse m1 with
        | none => rw [hbwd] at h; cases h
        | some m2 =>
          rw [hbwd] at h
          cases h
          have h1 := forwardPass_inv
            (fun n => n.duration = (n.optimistic + 4 * n.likely + n.pessimistic) / 6)
            (fun _ _ _ hnode => hnode) order _ m1 hfwd hbase
          have h2 := backwardPass_inv
            (fun n => n.duration = (n.optimistic + 4 * n.likely + n.pessimistic) / 6)
            (fun _ _ _ _ _ hnode => hnode) _ _ _ m1 m2 hbwd h1
          intro n hn
          rcases List.mem_map.mp hn with ⟨p, hp, rfl⟩
          exact h2 p hp

/-- **C7** witness: a single task with a negative and a zero estimate still
flows through the formula; the computed node has duration `(-3 + 0 + 2)/6`. -/
theorem C7_expected_duration_formula_witness :
    (∀ task : PertTask, calculateExpectedTime task =
      (task.optimistic + 4 * task.likely + task.pessimistic) / 6) ∧
    ∀ n ∈ [c7node],
      n.duration = (n.optimistic + 4 * n.likely + n.pessimistic) / 6 :=
  C7_expected_duration_formula [c7task] _ (by decide)

/-! ## Claims C1 and C10: behaviour on cyclic graphs -/

/-- **C10.** On any input whose dependency graph (restricted to present ids)
has a cycle, `calculateCPM` does not throw: it returns one node per distinct
input task id, each with the three-point duration but all schedule fields
zero and `isCritical` false. -/
theorem C10_cycle_zeroed_nodes (tasks : List PertTask) (h : HasCycle tasks) :
    ∃ out, calculateCPM tasks = some out ∧
      (∀ v, v ∈ out.map (fun n => n.id) ↔ ∃ t ∈ tasks, t.id = v) ∧
      (out.map (fun n => n.id)).Nodup ∧
      ∀ n ∈ out, n.duration = (n.optimistic + 4 * n.likely + n.pessimistic) / 6 ∧
        n.earlyStart = 0 ∧ n.earlyFinish = 0 ∧ n.lateStart = 0 ∧
        n.lateFinish = 0 ∧ n.slack = 0 ∧ n.isCritical = false := by
  refine ⟨(buildNodeMap tasks).map (fun p => p.2), cpm_cyclic_output tasks h, ?_, ?_, ?_⟩
  · intro v
    rw [buildNodeMap_values_ids, buildNodeMap_key_iff]
  · rw [buildNodeMap_values_ids]
    exact buildNodeMap_keys_nodup tasks
  · intro n hn
    rcases List.mem_map.mp hn with ⟨p, hp, rfl⟩
    rcases buildNodeMap_mem hp with ⟨t, _, rfl⟩
    exact ⟨rfl, rfl, rfl, rfl, rfl, rfl, rfl⟩

/-- **C10** witness: the three-task cycle U→W→V→U. -/
theorem C10_cycle_zeroed_nodes_witness :
    ∃ out, calculateCPM c10tasks = some out ∧
      (∀ v, v ∈ out.map (fun n => n.id) ↔ ∃ t ∈ c10tasks, t.id = v) ∧
      (out.map (fun n => n.id)).Nodup ∧
      ∀ n ∈ out, n.duration = (n.optimistic + 4 * n.likely + n.pessimistic) / 6 ∧
        n.earlyStart = 0 ∧ n.earlyFinish = 0 ∧ n.lateStart = 0 ∧
        n.lateFinish = 0 ∧ n.slack = 0 ∧ n.isCritical = false := by
  have e1 : DepEdge c10tasks "U" "W" :=
    ⟨⟨mkTask "U" "U" 1 2 4 ["W"], by decide, by decide⟩,
     ⟨mkTask "W" "W" 1 2 4 ["V"], by decide⟩⟩
  have e2 : DepEdge c10tasks "W" "V" :=
    ⟨⟨mkTask "W" "W" 1 2 4 ["V"], by decide, by decide⟩,
     ⟨mkTask "V" "V" 1 2 4 ["U"], by decide⟩⟩
  have e3 : DepEdge c10tasks "V" "U" :=
    ⟨⟨mkTask "V" "V" 1 2 4 ["U"], by decide, by decide⟩,
     ⟨mkTask "U" "U" 1 2 4 ["W"], by decide⟩⟩
  exact C10_cycle_zeroed_nodes c10tasks
    ⟨"U", Relation.TransGen.tail (Relation.TransGen.tail
      (Relation.TransGen.single e1) e2) e3⟩

/-- **C1** (corrected). The specification says a dependency cycle is fatal:
computation fails with a cycle error and callers receive no node set. In the
code the cycle is only logged to the console: `calculateCPM` returns
normally, handing callers the placeholder node list (one node per stored
task id, all schedule fields zero), non-empty whenever the input is
non-empty — callers do receive nodes rather than a failure. -/
theorem C1_cycle_returns_placeholders (tasks : List PertTask) (h : HasCycle tasks) :
    ∃ out, calculateCPM tasks = some out ∧
      out = (buildNodeMap tasks).map (fun p => p.2) ∧
      (tasks ≠ [] → out ≠ []) ∧
      ∀ n ∈ out, n.earlyStart = 0 ∧ n.earlyFinish = 0 ∧ n.lateStart = 0 ∧
        n.lateFinish = 0 ∧ n.slack = 0 ∧ n.isCritical = false := by
  refine ⟨_, cpm_cyclic_output tasks h, rfl, ?_, ?_⟩
  · intro hne hmt
    cases tasks with
    | nil => exact hne rfl
    | cons t ts =>
      have hkey : t.id ∈ (buildNodeMap (t :: ts)).map Prod.fst :=
        (buildNodeMap_key_iff _ t.id).mpr ⟨t, List.mem_cons_self _ _, rfl⟩
      have hempty : buildNodeMap (t :: ts) = [] := List.map_eq_nil_iff.mp hmt
      rw [hempty] at hkey
      cases hkey
  · intro n hn
    rcases List.mem_map.mp hn with ⟨p, hp, rfl⟩
    rcases buildNodeMap_mem hp with ⟨t, _, rfl⟩
    exact ⟨rfl, rfl, rfl, rfl, rfl, rfl⟩

/-- **C1** counterexample to the claim as stated: on the three-task cycle
A→B→C→A the computation does not fail and callers do not "receive the
failure": the sort reports the cycle but `calculateCPM` still returns a
non-empty list of placeholder nodes. -/
theorem C1_cycle_counterexample :
    topologicalSort c1tasks = some none ∧
    calculateCPM c1tasks ≠ none ∧
    calculateCPM c1tasks = some [initNode (mkTask "A" "A" 1 1 1 ["B"]),
      initNode (mkTask "B" "B" 1 1 1 ["C"]), initNode (mkTask "C" "C" 1 1 1 ["A"])] := by
  decide

/-- **C1** witness: the corrected theorem applied to the concrete cycle
A→B→C→A. -/
theorem C1_cycle_returns_placeholders_witness :
    ∃ out, calculateCPM c1tasks = some out ∧
      out = (buildNodeMap c1tasks).map (fun p => p.2) ∧
      (c1tasks ≠ [] → out ≠ []) ∧
      ∀ n ∈ out, n.earlyStart = 0 ∧ n.earlyFinish = 0 ∧ n.lateStart = 0 ∧
        n.lateFinish = 0 ∧ n.slack = 0 ∧ n.isCritical = false := by
  have e1 : DepEdge c1tasks "A" "B" :=
    ⟨⟨mkTask "A" "A" 1 1 1 ["B"], by decide, by decide⟩,
     ⟨mkTask "B" "B" 1 1 1 ["C"], by decide⟩⟩
  have e2 : DepEdge c1tasks "B" "C" :=
    ⟨⟨mkTask "B" "B" 1 1 1 ["C"], by decide, by decide⟩,
     ⟨mkTask "C" "C" 1 1 1 ["A"], by decide⟩⟩
  have e3 : DepEdge c1tasks "C" "A" :=
    ⟨⟨mkTask "C" "C" 1 1 1 ["A"], by decide, by decide⟩,
     ⟨mkTask "A" "A" 1 1 1 ["B"], by decide⟩⟩
  exact C1_cycle_returns_placeholders c1tasks
    ⟨"A", Relation.TransGen.tail (Relation.TransGen.tail
      (Relation.TransGen.single e1) e2) e3⟩

/-! ## Claim C3: the forward pass -/

/-- **C3** (corrected). The claim ranges over every acyclic input; in the code
an acyclic input with a dangling dependency crashes (see C2), so the forward
pass property holds under the additional hypotheses that task ids are unique
and every dependency id is present. Then every output node's `earlyStart` is
the maximum `earlyFinish` over its dependencies' nodes (`0` when it has
none), `earlyFinish = earlyStart + duration`, and consequently
`earlyStart ≥ earlyFinish` of each dependency. -/
theorem C3_forward_pass (tasks : List PertTask)
    (hnd : (tasks.map PertTask.id).Nodup)
    (hdang : ∀ t ∈ tasks, ∀ d ∈ t.dependencies, ∃ u ∈ tasks, u.id = d)
    (hacyc : ¬ HasCycle tasks) :
    ∃ out, calculateCPM tasks = some out ∧
      ∀ n ∈ out,
        n.earlyStart = maxPredecessorEF (out.map (fun x => (x.id, x))) n.dependencies ∧
        n.earlyFinish = n.earlyStart + n.duration ∧
        ∀ dn ∈ out, dn.id ∈ n.dependencies → dn.earlyFinish ≤ n.earlyStart := by
  obtain ⟨order, m2, hts, hcal, hOnd, hO2, hO3, hm2_isSome, horder_iff, hkeys,
    hid, hF, hrec⟩ := calculateCPM_valid_run tasks hnd hdang hacyc
  refine ⟨m2.map (fun p => p.2), hcal, ?_⟩
  have hrep : ((m2.map (fun p => p.2)).map (fun n => (n.id, n))) = m2 := map_repair hid
  intro n hn
  rcases List.mem_map.mp hn with ⟨p, hp, rfl⟩
  have hpget : mapGet m2 p.1 = some p.2 := mapGet_of_mem_nodup hkeys hp
  obtain ⟨hES, hEF, _, _, _, _⟩ := hrec p.1 p.2 hpget
  refine ⟨?_, hEF, ?_⟩
  · rw [hrep]
    exact hES
  · intro dn hdn hdnmem
    rcases List.mem_map.mp hdn with ⟨q, hq, rfl⟩
    have hqid : q.2.id = q.1 := hid q hq
    have hqget : mapGet m2 q.2.id = some q.2 := by
      rw [hqid]
      exact mapGet_of_mem_nodup hkeys hq
    have hle := le_maxPredecessorEF m2 hdnmem hqget
    rw [hES]
    exact hle

/-- **C3** counterexample to the claim as stated: `c3tasks` (task P depending
on the absent id Q) is acyclic — the sort succeeds — yet the forward pass has
no output at all: `calculateCPM` throws (dereferences a missing node). -/
theorem C3_forward_pass_counterexample :
    topologicalSort c3tasks = some (some ["Q", "P"]) ∧
    ¬ HasCycle c3tasks ∧ calculateCPM c3tasks = none :=
  ⟨by decide, topologicalSort_some_not_hasCycle c3tasks ["Q", "P"] (by decide),
    by decide⟩

/-- **C3** witness: the specification's four-task scenario A, B, C, D. -/
theorem C3_forward_pass_witness :
    ∃ out, calculateCPM cpmScenario = some out ∧
      ∀ n ∈ out,
        n.earlyStart = maxPredecessorEF (out.map (fun x => (x.id, x))) n.dependencies ∧
        n.earlyFinish = n.earlyStart + n.duration ∧
        ∀ dn ∈ out, dn.id ∈ n.dependencies → dn.earlyFinish ≤ n.earlyStart :=
  C3_forward_pass cpmScenario (by decide) (by decide)
    (topologicalSort_some_not_hasCycle cpmScenario ["A", "B", "C", "D"] (by decide))

/-! ## Claim C4: the backward pass -/

theorem untop_le_of_le_coe {x : WithTop ℚ} {q : ℚ} (h : x ≤ (q : WithTop ℚ)) :
    x.untop' 0 ≤ q := by
  induction x using WithTop.recTopCoe with
  | top => exact absurd h (WithTop.not_top_le_coe q)
  | coe r =>
    rw [WithTop.untop'_coe]
    exact_mod_cast h

/-- **C4** (corrected). As for C3 the claim ranges over every acyclic input,
but a dangling dependency crashes the computation, so unique ids and
no dangling references are assumed. Then every output node satisfies
`lateStart = lateFinish - duration` and `slack = lateStart - earlyStart`;
a node no other task depends on has `lateFinish` equal to the project
duration (maximum `earlyFinish` over all nodes), and a node with dependents
has `lateFinish` the minimum `lateStart` among them (it is `≤` each
dependent's `lateStart` and attained at one of them). -/
theorem C4_backward_pass (tasks : List PertTask)
    (hnd : (tasks.map PertTask.id).Nodup)
    (hdang : ∀ t ∈ tasks, ∀ d ∈ t.dependencies, ∃ u ∈ tasks, u.id = d)
    (hacyc : ¬ HasCycle tasks) :
    ∃ out, calculateCPM tasks = some out ∧
      ∀ n ∈ out,
        n.lateStart = n.lateFinish - n.duration ∧
        n.slack = n.lateStart - n.earlyStart ∧
        ((∀ sn ∈ out, n.id ∉ sn.dependencies) →
          n.lateFinish = projectDurationOf (out.map (fun x => (x.id, x)))) ∧
        (∀ sn ∈ out, n.id ∈ sn.dependencies → n.lateFinish ≤ sn.lateStart) ∧
        ((∃ sn ∈ out, n.id ∈ sn.dependencies) →
          ∃ sn ∈ out, n.id ∈ sn.dependencies ∧ n.lateFinish = sn.lateStart) := by
  obtain ⟨order, m2, hts, hcal, hOnd, hO2, hO3, hm2_isSome, horder_iff, hkeys,
    hid, hF, hrec⟩ := calculateCPM_valid_run tasks hnd hdang hacyc
  refine ⟨m2.map (fun p => p.2), hcal, ?_⟩
  have hrep : ((m2.map (fun p => p.2)).map (fun n => (n.id, n))) = m2 := map_repair hid
  have hmem_node : ∀ q ∈ m2, mapGet m2 q.1 = some q.2 :=
    fun q hq => mapGet_of_mem_nodup hkeys hq
  have htask : ∀ q ∈ m2, q.2.toPertTask ∈ tasks := by
    intro q hq
    obtain ⟨t, ht, htid⟩ := (hm2_isSome q.1).mp (by rw [hmem_node q hq]; rfl)
    obtain ⟨node', hget', htp, _⟩ := hF t ht
    rw [htid, hmem_node q hq] at hget'
    have he : node' = q.2 := (Option.some.inj hget').symm
    rw [he] at htp
    rw [htp]
    exact ht
  have hsucc_iff : ∀ j x : String,
      x ∈ succContrib j tasks ↔ ∃ q ∈ m2, q.2.id = x ∧ j ∈ q.2.dependencies := by
    intro j x
    constructor
    · intro hx
      rcases mem_succContrib.mp hx with ⟨t, ht, htid, hjdep⟩
      obtain ⟨node', hget', htp, _⟩ := hF t ht
      refine ⟨(t.id, node'), mapGet_eq_some_mem hget', ?_, ?_⟩
      · show node'.toPertTask.id = x
        rw [htp]
        exact htid
      · show j ∈ node'.toPertTask.dependencies
        rw [htp]
        exact hjdep
    · rintro ⟨q, hq, hqx, hjq⟩
      refine mem_succContrib.mpr ⟨q.2.toPertTask, htask q hq, hqx, hjq⟩
  intro n hn
  rcases List.mem_map.mp hn with ⟨p, hp, rfl⟩
  have hpget : mapGet m2 p.1 = some p.2 := hmem_node p hp
  have hpid : p.2.id = p.1 := hid p hp
  have hppres : ∃ t ∈ tasks, t.id = p.1 := (hm2_isSome p.1).mp (by rw [hpget]; rfl)
  obtain ⟨_, _, hLF, hLS, hslack, _⟩ := hrec p.1 p.2 hpget
  rw [buildSuccessorsMap_get_present tasks p.1 hppres] at hLF
  simp only [Option.getD_some] at hLF
  refine ⟨hLS, hslack, ?_, ?_, ?_⟩
  · intro hno
    have hempty : succContrib p.1 tasks = [] := by
      rw [List.eq_nil_iff_forall_not_mem]
      intro x hx
      rcases (hsucc_iff p.1 x).mp hx with ⟨q, hq, _, hjq⟩
      exact hno q.2 (List.mem_map.mpr ⟨q, hq, rfl⟩) (hpid ▸ hjq)
    rw [hempty] at hLF
    simp only [List.isEmpty_nil, if_true] at hLF
    rw [hrep]
    exact hLF
  · intro sn hsn hdep
    rcases List.mem_map.mp hsn with ⟨q, hq, rfl⟩
    have hqid : q.2.id = q.1 := hid q hq
    have hxin : q.2.id ∈ succContrib p.1 tasks :=
      (hsucc_iff p.1 q.2.id).mpr ⟨q, hq, rfl, hpid.symm ▸ hdep⟩
    cases hsl : succContrib p.1 tasks with
    | nil => rw [hsl] at hxin; cases hxin
    | cons s ss =>
      rw [hsl] at hLF hxin
      simp only [List.isEmpty_cons, if_false, Bool.false_eq_true] at hLF
      have hqget : mapGet m2 q.2.id = some q.2 := by
        rw [hqid]
        exact hmem_node q hq
      have hle := minSuccessorLS_le m2 hxin hqget
      rw [hLF]
      exact untop_le_of_le_coe hle
  · rintro ⟨sn, hsn, hdep⟩
    rcases List.mem_map.mp hsn with ⟨q, hq, rfl⟩
    have hxin : q.2.id ∈ succContrib p.1 tasks :=
      (hsucc_iff p.1 q.2.id).mpr ⟨q, hq, rfl, hpid.symm ▸ hdep⟩
    cases hsl : succContrib p.1 tasks with
    | nil => rw [hsl] at hxin; cases hxin
    | cons s ss =>
      rw [hsl] at hLF
      simp only [List.isEmpty_cons, if_false, Bool.false_eq_true] at hLF
      have hsome : ∀ x ∈ s :: ss, ∃ xn, mapGet m2 x = some xn := by
        intro x hxm
        rw [← hsl] at hxm
        rcases (hsucc_iff p.1 x).mp hxm with ⟨r, hr, hrx, _⟩
        exact ⟨r.2, by rw [← hrx, hid r hr]; exact hmem_node r hr⟩
      obtain ⟨x, xn, hxmem, hxget, hmin⟩ :=
        minfold_attained m2 (by simp : (s :: ss : List String) ≠ []) hsome
      have hxc : x ∈ succContrib p.1 tasks := by rw [hsl]; exact hxmem
      rcases (hsucc_iff p.1 x).mp hxc with ⟨r, hr, hrx, hjr⟩
      have hrget : mapGet m2 x = some r.2 := by
        rw [← hrx, hid r hr]
        exact hmem_node r hr
      have hre : r.2 = xn := by
        rw [hrget] at hxget
        exact Option.some.inj hxget
      refine ⟨xn, List.mem_map.mpr ⟨r, hr, hre⟩, ?_, ?_⟩
      · rw [← hre]
        exact hpid ▸ hjr
      · rw [hLF, hmin, WithTop.untop'_coe]

/-- **C4** counterexample to the claim as stated: `c4tasks` (task R depending
on the absent id S) is acyclic, yet the backward pass is never reached:
`calculateCPM` throws during the forward pass. -/
theorem C4_backward_pass_counterexample :
    topologicalSort c4tasks = some (some ["S", "R"]) ∧
    ¬ HasCycle c4tasks ∧ calculateCPM c4tasks = none :=
  ⟨by decide, topologicalSort_some_not_hasCycle c4tasks ["S", "R"] (by decide),
    by decide⟩

/-- **C4** witness: the specification's four-task scenario A, B, C, D. -/
theorem C4_backward_pass_witness :
    ∃ out, calculateCPM cpmScenario = some out ∧
      ∀ n ∈ out,
        n.lateStart = n.lateFinish - n.duration ∧
        n.slack = n.lateStart - n.earlyStart ∧
        ((∀ sn ∈ out, n.id ∉ sn.dependencies) →
          n.lateFinish = projectDurationOf (out.map (fun x => (x.id, x)))) ∧
        (∀ sn ∈ out, n.id ∈ sn.dependencies → n.lateFinish ≤ sn.lateStart) ∧
        ((∃ sn ∈ out, n.id ∈ sn.dependencies) →
          ∃ sn ∈ out, n.id ∈ sn.dependencies ∧ n.lateFinish = sn.lateStart) :=
  C4_backward_pass cpmScenario (by decide) (by decide)
    (topologicalSort_some_not_hasCycle cpmScenario ["A", "B", "C", "D"] (by decide))

/-! ## Claim C5: slack symmetry -/

theorem forwardPass_processed :
    ∀ (ids : List String) (m m' : List (String × PertNode)),
      forwardPass ids m = some m' →
      ∀ j ∈ ids, ∃ node, mapGet m' j = some node ∧
        node.earlyFinish = node.earlyStart + node.duration := by
  intro ids
  induction ids with
  | nil => intro m m' _ j hj; cases hj
  | cons id rest ih =>
    intro m m' h j hj
    rw [forwardPass] at h
    cases hget : mapGet m id with
    | none => rw [hget] at h; cases h
    | some node =>
      rw [hget] at h
      dsimp only at h
      by_cases hjr : j ∈ rest
      · exact ih _ _ h j hjr
      · have hj_id : j = id := by
          rcases List.mem_cons.mp hj with he | hr
          · exact he
          · exact absurd hr hjr
        subst hj_id
        have hpres := forwardPass_preserves_notin rest _ m' h j hjr
        rw [hpres, mapGet_mapSet_self]
        exact ⟨_, rfl, rfl⟩

theorem backwardPass_processed (succMap : List (String × List String)) (projD : ℚ) :
    ∀ (ids : List String) (m m' : List (String × PertNode)),
      backwardPass succMap projD ids m = some m' →
      ∀ j ∈ ids, ∃ node, mapGet m' j = some node ∧
        node.lateStart = node.lateFinish - node.duration ∧
        node.slack = node.lateStart - node.earlyStart := by
  intro ids
  induction ids with
  | nil => intro m m' _ j hj; cases hj
  | cons id rest ih =>
    intro m m' h j hj
    rw [backwardPass] at h
    cases hget : mapGet m id with
    | none => rw [hget] at h; cases h
    | some node =>
      rw [hget] at h
      dsimp only at h
      by_cases hjr : j ∈ rest
      · exact ih _ _ h j hjr
      · have hj_id : j = id := by
          rcases List.mem_cons.mp hj with he | hr
          · exact he
          · exact absurd hr hjr
        subst hj_id
        have hpres := backwardPass_preserves_notin succMap projD rest _ m' h j hjr
        rw [hpres, mapGet_mapSet_self]
        exact ⟨_, rfl, rfl, rfl⟩

/-- **C5.** For every node of any computed output, `slack` equals
`lateStart - earlyStart` and equals `lateFinish - earlyFinish`; and whenever
the input is a valid acyclic graph (unique ids, no dangling references) with
non-negative durations, every node's slack is non-negative. -/
theorem C5_slack_symmetry (tasks : List PertTask) (out : List PertNode)
    (hout : calculateCPM tasks = some out) :
    (∀ n ∈ out, n.slack = n.lateStart - n.earlyStart ∧
      n.slack = n.lateFinish - n.earlyFinish) ∧
    ((tasks.map PertTask.id).Nodup →
      (∀ t ∈ tasks, ∀ d ∈ t.dependencies, ∃ u ∈ tasks, u.id = d) →
      ¬ HasCycle tasks →
      (∀ t ∈ tasks, 0 ≤ calculateExpectedTime t) →
      ∀ n ∈ out, 0 ≤ n.slack) := by
  constructor
  · unfold calculateCPM at hout
    cases hts : topologicalSort tasks with
    | none => rw [hts] at hout; cases hout
    | some r =>
      cases r with
      | none =>
        rw [hts] at hout
        dsimp only at hout
        cases hout
        intro n hn
        rcases List.mem_map.mp hn with ⟨p, hp, rfl⟩
        rcases buildNodeMap_mem hp with ⟨t, _, rfl⟩
        constructor
        · show (0 : ℚ) = 0 - 0
          norm_num
        · show (0 : ℚ) = 0 - 0
          norm_num
      | some order =>
        rw [hts] at hout
        dsimp only at hout
        cases hfwd : forwardPass order (buildNodeMap tasks) with
        | none => rw [hfwd] at hout; cases hout
        | some m1 =>
          rw [hfwd] at hout
          dsimp only at hout
          cases hbwd : backwardPass (buildSuccessorsMap tasks) (projectDurationOf m1)
              order.reverse m1 with
          | none => rw [hbwd] at hout; cases hout
          | some m2 =>
            rw [hbwd] at hout
            cases hout
            have hkeys2 : (m2.map Prod.fst).Nodup := by
              rw [backwardPass_keys_eq _ _ _ _ _ hbwd, forwardPass_keys_eq _ _ _ hfwd]
              exact buildNodeMap_keys_nodup tasks
            obtain ⟨hOnd, hmem, _⟩ := topologicalSort_some_spec tasks order hts
            intro n hn
            rcases List.mem_map.mp hn with ⟨p, hp, rfl⟩
            have hpget : mapGet m2 p.1 = some p.2 := mapGet_of_mem_nodup hkeys2 hp
            have hporder : p.1 ∈ order := by
              have hkey : p.1 ∈ (buildNodeMap tasks).map Prod.fst := by
                rw [← forwardPass_keys_eq _ _ _ hfwd,
                  ← backwardPass_keys_eq _ _ _ _ _ hbwd]
                exact List.mem_map.mpr ⟨p, hp, rfl⟩
              rcases (buildNodeMap_key_iff tasks p.1).mp hkey with ⟨t, ht, htid⟩
              exact htid ▸ hmem t ht
            obtain ⟨nodeB, hgetB, hLSe, hslacke⟩ :=
              backwardPass_processed _ _ order.reverse m1 m2 hbwd p.1
                (List.mem_reverse.mpr hporder)
            have heB : nodeB = p.2 := by
              rw [hpget] at hgetB
              exact (Option.some.inj hgetB).symm
            rw [heB] at hLSe hslacke
            obtain ⟨nodeF, hgetF, hEFe⟩ :=
              forwardPass_processed order _ m1 hfwd p.1 hporder
            have hproj := backwardPass_get_proj
              (fun n => (n.earlyStart, n.earlyFinish, n.duration))
              (fun _ _ _ _ _ => rfl) _ _ order.reverse m1 m2 hbwd p.1
            rw [hpget, hgetF] at hproj
            have hg : (p.2.earlyStart, p.2.earlyFinish, p.2.duration) =
                (nodeF.earlyStart, nodeF.earlyFinish, nodeF.duration) := by
              simp only [Option.map] at hproj
              exact Option.some.inj hproj
            have he1 := congrArg (fun q : ℚ × ℚ × ℚ => q.1) hg
            have he2 := congrArg (fun q : ℚ × ℚ × ℚ => q.2.1) hg
            have he3 := congrArg (fun q : ℚ × ℚ × ℚ => q.2.2) hg
            dsimp only at he1 he2 he3
            refine ⟨hslacke, ?_⟩
            rw [hslacke, hLSe]
            linarith [hEFe, he1, he2, he3]
  · intro hnd hdang hacyc _ n hn
    obtain ⟨order, m2, hts, hcal, hOnd, hO2, hO3, hm2_isSome, horder_iff, hkeys,
      hid, hF, hrec⟩ := calculateCPM_valid_run tasks hnd hdang hacyc
    rw [hout] at hcal
    have heq : out = m2.map (fun p => p.2) := Option.some.inj hcal
    subst heq
    rcases List.mem_map.mp hn with ⟨p, hp, rfl⟩
    have hpget : mapGet m2 p.1 = some p.2 := mapGet_of_mem_nodup hkeys hp
    have hle := ef_le_lf tasks order m2 hnd hOnd hO2 hO3 hm2_isSome hF hrec
      p.1 p.2 hpget
    obtain ⟨_, hEF, _, hLS, hslack, _⟩ := hrec p.1 p.2 hpget
    rw [hslack, hLS]
    linarith [hle, hEF]

/-- **C5** witness: the specification's four-task scenario; its four computed
nodes carry slacks 0, 0, 7/6, 0. -/
theorem C5_slack_symmetry_witness :
    (∀ n ∈ cpmOut, n.slack = n.lateStart - n.earlyStart ∧
      n.slack = n.lateFinish - n.earlyFinish) ∧
    ((cpmScenario.map PertTask.id).Nodup →
      (∀ t ∈ cpmScenario, ∀ d ∈ t.dependencies, ∃ u ∈ cpmScenario, u.id = d) →
      ¬ HasCycle cpmScenario →
      (∀ t ∈ cpmScenario, 0 ≤ calculateExpectedTime t) →
      ∀ n ∈ cpmOut, 0 ≤ n.slack) :=
  C5_slack_symmetry cpmScenario cpmOut (by decide)

/-! ## Claim C6: existence of a critical path -/

theorem maxPredecessorEF_nonneg (m : List (String × PertNode)) (deps : List String) :
    0 ≤ maxPredecessorEF m deps := by
  unfold maxPredecessorEF
  exact maxfold_acc_le m deps 0

theorem critical_chain (tasks : List PertTask) (order : List String)
    (m2 : List (String × PertNode))
    (hnd : (tasks.map PertTask.id).Nodup)
    (hdang : ∀ t ∈ tasks, ∀ d ∈ t.dependencies, ∃ u ∈ tasks, u.id = d)
    (hOnd : order.Nodup)
    (hO2 : ∀ t ∈ tasks, t.id ∈ order)
    (hO3 : ∀ l1 v l2 task, order = l1 ++ v :: l2 →
      mapGet (buildTaskMap tasks) v = some task → ∀ d ∈ task.dependencies, d ∈ l1)
    (hm2_isSome : ∀ v, (mapGet m2 v).isSome ↔ ∃ t ∈ tasks, t.id = v)
    (horder_iff : ∀ v, v ∈ order ↔ (mapGet m2 v).isSome)
    (hF : ∀ t ∈ tasks, ∃ node, mapGet m2 t.id = some node ∧
      node.toPertTask = t ∧ node.duration = calculateExpectedTime t)
    (hrec : ∀ j node2, mapGet m2 j = some node2 →
      node2.earlyStart = maxPredecessorEF m2 node2.dependencies ∧
      node2.earlyFinish = node2.earlyStart + node2.duration ∧
      node2.lateFinish = (if ((mapGet (buildSuccessorsMap tasks) j).getD []).isEmpty
        then projectDurationOf m2
        else (minSuccessorLS m2
          ((mapGet (buildSuccessorsMap tasks) j).getD [])).untop' 0) ∧
      node2.lateStart = node2.lateFinish - node2.duration ∧
      node2.slack = node2.lateStart - node2.earlyStart ∧
      node2.isCritical = decide (|node2.slack| < 1 / 100))
    (hpos : ∀ t ∈ tasks, 0 ≤ calculateExpectedTime t) :
    ∀ k : ℕ, ∀ j nj, order.indexOf j = k → mapGet m2 j = some nj →
      nj.lateFinish = nj.earlyFinish →
      ∃ chain : List String, chain ≠ [] ∧ chain.getLast? = some j ∧
        (∀ c ∈ chain, ∃ cn, mapGet m2 c = some cn ∧ cn.isCritical = true) ∧
        List.Chain' (fun a b => ∃ bn, mapGet m2 b = some bn ∧ a ∈ bn.dependencies) chain ∧
        (∀ h0, chain.head? = some h0 → ∃ hn, mapGet m2 h0 = some hn ∧
          hn.dependencies = []) ∧
        (chain.map (fun c => ((mapGet m2 c).map (fun n => n.duration)).getD 0)).sum
          = nj.earlyFinish := by
  have htaskof : ∀ x xn, mapGet m2 x = some xn →
      ∃ t ∈ tasks, t.id = x ∧ xn.toPertTask = t := by
    intro x xn hg
    obtain ⟨t, ht, htid⟩ := (hm2_isSome x).mp (by rw [hg]; rfl)
    obtain ⟨node', hget', htp, _⟩ := hF t ht
    rw [htid, hg] at hget'
    have he : node' = xn := (Option.some.inj hget').symm
    rw [he] at htp
    exact ⟨t, ht, htid, htp⟩
  have hdurpos : ∀ x xn, mapGet m2 x = some xn → 0 ≤ xn.duration := by
    intro x xn hg
    obtain ⟨t, ht, htid⟩ := (hm2_isSome x).mp (by rw [hg]; rfl)
    obtain ⟨node', hget', _, hdur⟩ := hF t ht
    rw [htid, hg] at hget'
    have he : node' = xn := (Option.some.inj hget').symm
    rw [he] at hdur
    rw [hdur]
    exact hpos t ht
  have heflf := ef_le_lf tasks order m2 hnd hOnd hO2 hO3 hm2_isSome hF hrec
  intro k
  induction k using Nat.strong_induction_on with
  | _ k ih =>
    intro j nj hidx hget hLFEF
    obtain ⟨hES, hEF, hLF, hLS, hslack, hcrit⟩ := hrec j nj hget
    have hslack0 : nj.slack = 0 := by
      rw [hslack, hLS, hLFEF, hEF]
      ring
    have hcrit' : nj.isCritical = true := by
      rw [hcrit, hslack0]
      decide
    cases hdeps : nj.dependencies with
    | nil =>
      have hES0 : nj.earlyStart = 0 := by
        rw [hES, hdeps]
        rfl
      refine ⟨[j], by simp, rfl, ?_, List.chain'_singleton j, ?_, ?_⟩
      · intro c hc
        have : c = j := by simpa using hc
        subst this
        exact ⟨nj, hget, hcrit'⟩
      · intro h0 hh0
        have : h0 = j := by simpa using hh0.symm
        subst this
        exact ⟨nj, hget, hdeps⟩
      · simp only [List.map_cons, List.map_nil, List.sum_cons, List.sum_nil, add_zero]
        rw [hget]
        show nj.duration = nj.earlyFinish
        rw [hEF, hES0]
        ring
    | cons d0 ds =>
      have hdepsne : nj.dependencies ≠ [] := by
        rw [hdeps]
        simp
      obtain ⟨tj, htjm, htjid, htjp⟩ := htaskof j nj hget
      have hdepseq : nj.dependencies = tj.dependencies := by
        show nj.toPertTask.dependencies = tj.dependencies
        rw [htjp]
      have hdsome : ∀ d' ∈ nj.dependencies, ∃ dn', mapGet m2 d' = some dn' := by
        intro d' hd'
        have hpres : ∃ u ∈ tasks, u.id = d' := hdang tj htjm d' (hdepseq ▸ hd')
        have hs := (hm2_isSome d').mpr hpres
        cases hg : mapGet m2 d' with
        | none => rw [hg] at hs; cases hs
        | some dn' => exact ⟨dn', rfl⟩
      have hEFpos : ∀ d' dn', d' ∈ nj.dependencies → mapGet m2 d' = some dn' →
          0 ≤ dn'.earlyFinish := by
        intro d' dn' _ hg
        obtain ⟨hES', hEF', _, _, _, _⟩ := hrec d' dn' hg
        have h1 : 0 ≤ dn'.earlyStart := by
          rw [hES']
          exact maxPredecessorEF_nonneg m2 _
        have h2 := hdurpos d' dn' hg
        linarith [hEF']
      obtain ⟨dstar, dn, hdmem, hdget, hdattain⟩ :=
        maxfold_attained m2 hdepsne hdsome hEFpos
      have hjsucc : j ∈ succContrib dstar tasks :=
        mem_succContrib.mpr ⟨tj, htjm, htjid, hdepseq ▸ hdmem⟩
      have hdpres : ∃ t ∈ tasks, t.id = dstar := by
        obtain ⟨u, hu, hud⟩ := hdang tj htjm dstar (hdepseq ▸ hdmem)
        exact ⟨u, hu, hud⟩
      obtain ⟨hdES, hdEF, hdLF, hdLS, hdslack, hdcrit⟩ := hrec dstar dn hdget
      rw [buildSuccessorsMap_get_present tasks dstar hdpres] at hdLF
      simp only [Option.getD_some] at hdLF
      cases hscl : succContrib dstar tasks with
      | nil =>
        rw [hscl] at hjsucc
        cases hjsucc
      | cons s ss =>
        rw [hscl] at hdLF
        simp only [List.isEmpty_cons, if_false, Bool.false_eq_true] at hdLF
        have hminle : minSuccessorLS m2 (s :: ss) ≤ (nj.lateStart : WithTop ℚ) := by
          apply minSuccessorLS_le m2 _ hget
          rw [← hscl]
          exact hjsucc
        have hdnLF_le : dn.lateFinish ≤ nj.lateStart := by
          rw [hdLF]
          exact untop_le_of_le_coe hminle
        have hnjLS : nj.lateStart = dn.earlyFinish := by
          rw [hLS, hLFEF, hEF, hES, hdattain]
          ring
        have hdnEF_le := heflf dstar dn hdget
        have hdLFEF : dn.lateFinish = dn.earlyFinish :=
          le_antisymm (hnjLS ▸ hdnLF_le) hdnEF_le
        have hjord : j ∈ order := (horder_iff j).mpr (by rw [hget]; rfl)
        obtain ⟨l1, l2, hjdec⟩ := List.append_of_mem hjord
        have htm_get_j : mapGet (buildTaskMap tasks) j = some tj := by
          have := foldBuild_get_of_mem_nodup PertTask.id (fun t => t) tasks [] hnd tj htjm
          rw [htjid] at this
          exact this
        have hd_in_l1 : dstar ∈ l1 :=
          hO3 l1 j l2 tj hjdec htm_get_j dstar (hdepseq ▸ hdmem)
        have hlt : order.indexOf dstar < order.indexOf j :=
          index_lt_of_before hOnd hjdec hd_in_l1
        rw [hidx] at hlt
        obtain ⟨c, hcne, hclast, hcmem, hcchain, hchead, hcsum⟩ :=
          ih _ hlt dstar dn rfl hdget hdLFEF
        refine ⟨c ++ [j], by simp, List.getLast?_concat c, ?_, ?_, ?_, ?_⟩
        · intro x hx
          rcases List.mem_append.mp hx with hx1 | hx2
          · exact hcmem x hx1
          · have : x = j := by simpa using hx2
            subst this
            exact ⟨nj, hget, hcrit'⟩
        · rw [List.chain'_append]
          refine ⟨hcchain, List.chain'_singleton j, ?_⟩
          intro x hx y hy
          rw [hclast] at hx
          have hxe : dstar = x := by simpa using hx
          have hye : j = y := by simpa using hy
          subst hxe
          subst hye
          exact ⟨nj, hget, hdmem⟩
        · intro h0 hh0
          rw [head?_append_left [j] hcne] at hh0
          exact hchead h0 hh0
        · rw [List.map_append, List.sum_append]
          have hsing : (List.map
              (fun c => ((mapGet m2 c).map (fun n => n.duration)).getD 0) [j]).sum
              = nj.duration := by
            simp only [List.map_cons, List.map_nil, List.sum_cons, List.sum_nil, add_zero]
            rw [hget]
            rfl
          rw [hsing, hcsum]
          rw [hEF, hES, hdattain]

theorem m2_entry_task (tasks : List PertTask) (m2 : List (String × PertNode))
    (hkeys : (m2.map Prod.fst).Nodup)
    (hm2_isSome : ∀ v, (mapGet m2 v).isSome ↔ ∃ t ∈ tasks, t.id = v)
    (hF : ∀ t ∈ tasks, ∃ node, mapGet m2 t.id = some node ∧
      node.toPertTask = t ∧ node.duration = calculateExpectedTime t) :
    ∀ q ∈ m2, q.2.toPertTask ∈ tasks := by
  intro q hq
  have hqget : mapGet m2 q.1 = some q.2 := mapGet_of_mem_nodup hkeys hq
  obtain ⟨t, ht, htid⟩ := (hm2_isSome q.1).mp (by rw [hqget]; rfl)
  obtain ⟨node', hget', htp, _⟩ := hF t ht
  rw [htid, hqget] at hget'
  have he : node' = q.2 := (Option.some.inj hget').symm
  rw [he] at htp
  rw [htp]
  exact ht

/-- **C6** (corrected). The claim ranges over every non-empty acyclic input;
as for C3/C4 a dangling reference crashes the computation, and with negative
durations no critical node need exist, so unique ids, no dangling references
and non-negative expected durations are assumed. Then at least one output
node is critical, and there is a dependency chain of critical nodes from a
dependency-free node to a successor-free node whose summed durations equal
the project duration. -/
theorem C6_critical_path (tasks : List PertTask)
    (hne : tasks ≠ [])
    (hnd : (tasks.map PertTask.id).Nodup)
    (hdang : ∀ t ∈ tasks, ∀ d ∈ t.dependencies, ∃ u ∈ tasks, u.id = d)
    (hacyc : ¬ HasCycle tasks)
    (hpos : ∀ t ∈ tasks, 0 ≤ calculateExpectedTime t) :
    ∃ out, calculateCPM tasks = some out ∧
      (∃ n ∈ out, n.isCritical = true) ∧
      ∃ chain : List String, chain ≠ [] ∧
        (∀ c ∈ chain, ∃ cn ∈ out, cn.id = c ∧ cn.isCritical = true) ∧
        List.Chain' (fun a b => ∃ bn ∈ out, bn.id = b ∧ a ∈ bn.dependencies) chain ∧
        (∀ h0, chain.head? = some h0 → ∃ hn ∈ out, hn.id = h0 ∧
          hn.dependencies = []) ∧
        (∀ z, chain.getLast? = some z → ∃ zn ∈ out, zn.id = z ∧
          ∀ w ∈ out, z ∉ w.dependencies) ∧
        (chain.map (fun c =>
          ((mapGet (out.map (fun x => (x.id, x))) c).map (fun n => n.duration)).getD 0)).sum
          = projectDurationOf (out.map (fun x => (x.id, x))) := by
  obtain ⟨order, m2, hts, hcal, hOnd, hO2, hO3, hm2_isSome, horder_iff, hkeys,
    hid, hF, hrec⟩ := calculateCPM_valid_run tasks hnd hdang hacyc
  have hrep : ((m2.map (fun p => p.2)).map (fun n => (n.id, n))) = m2 := map_repair hid
  have hmem_node : ∀ q ∈ m2, mapGet m2 q.1 = some q.2 :=
    fun q hq => mapGet_of_mem_nodup hkeys hq
  have hdurpos : ∀ x xn, mapGet m2 x = some xn → 0 ≤ xn.duration := by
    intro x xn hg
    obtain ⟨t, ht, htid⟩ := (hm2_isSome x).mp (by rw [hg]; rfl)
    obtain ⟨node', hget', _, hdur⟩ := hF t ht
    rw [htid, hg] at hget'
    have he : node' = xn := (Option.some.inj hget').symm
    rw [he] at hdur
    rw [hdur]
    exact hpos t ht
  have hEFnn : ∀ p ∈ m2, 0 ≤ p.2.earlyFinish := by
    intro p hp
    have hg := hmem_node p hp
    obtain ⟨hES', hEF', _, _, _, _⟩ := hrec p.1 p.2 hg
    have h1 := maxPredecessorEF_nonneg m2 p.2.dependencies
    have h2 := hdurpos p.1 p.2 hg
    linarith [hEF', hES']
  have hm2ne : m2 ≠ [] := by
    cases tasks with
    | nil => exact absurd rfl hne
    | cons t0 ts =>
      have hs := (hm2_isSome t0.id).mpr ⟨t0, List.mem_cons_self _ _, rfl⟩
      intro hmt
      rw [hmt] at hs
      cases hs
  obtain ⟨p0, hp0, hproj⟩ := projD_attained hm2ne hEFnn
  have hp0pred : (fun v => decide ((mapGet m2 v).map (fun n => n.earlyFinish) =
      some (projectDurationOf m2))) p0.1 = true := by
    apply decide_eq_true
    rw [hmem_node p0 hp0]
    simp only [Option.map]
    exact congrArg some hproj.symm
  have hp0rev : p0.1 ∈ order.reverse := by
    rw [List.mem_reverse]
    exact (horder_iff p0.1).mpr (by rw [hmem_node p0 hp0]; rfl)
  have hfind : (order.reverse.find? (fun v =>
      decide ((mapGet m2 v).map (fun n => n.earlyFinish) =
        some (projectDurationOf m2)))).isSome :=
    List.find?_isSome.mpr ⟨p0.1, hp0rev, hp0pred⟩
  cases hfd : order.reverse.find? (fun v =>
      decide ((mapGet m2 v).map (fun n => n.earlyFinish) =
        some (projectDurationOf m2))) with
  | none => rw [hfd] at hfind; cases hfind
  | some vstar =>
    obtain ⟨u, w, hdecu, hu, hpv⟩ := find?_first _ order.reverse vstar hfd
    have hpv' : (mapGet m2 vstar).map (fun n => n.earlyFinish) =
        some (projectDurationOf m2) := of_decide_eq_true hpv
    cases hvget : mapGet m2 vstar with
    | none => rw [hvget] at hpv'; cases hpv'
    | some nstar =>
      rw [hvget] at hpv'
      simp only [Option.map] at hpv'
      have hnstarEF : nstar.earlyFinish = projectDurationOf m2 := Option.some.inj hpv'
      have hsempty : succContrib vstar tasks = [] := by
        rw [List.eq_nil_iff_forall_not_mem]
        intro x hx
        rcases mem_succContrib.mp hx with ⟨t, ht, htid, hvdep⟩
        obtain ⟨xn, hxget0, hxtp, _⟩ := hF t ht
        have hxget : mapGet m2 x = some xn := by
          rw [← htid]
          exact hxget0
        obtain ⟨hxES, hxEF, _, _, _, _⟩ := hrec x xn hxget
        have hvxn : vstar ∈ xn.dependencies := by
          show vstar ∈ xn.toPertTask.dependencies
          rw [hxtp]
          exact hvdep
        have h1 : nstar.earlyFinish ≤ xn.earlyStart := by
          rw [hxES]
          exact le_maxPredecessorEF m2 hvxn hvget
        have h2 : 0 ≤ xn.duration := hdurpos x xn hxget
        have h3 : projectDurationOf m2 ≤ xn.earlyFinish := by
          rw [← hnstarEF]
          linarith [hxEF]
        have h4 : xn.earlyFinish ≤ projectDurationOf m2 :=
          projD_ge (mapGet_eq_some_mem hxget)
        have h5 : xn.earlyFinish = projectDurationOf m2 := le_antisymm h4 h3
        have hpredx : (fun v => decide ((mapGet m2 v).map (fun n => n.earlyFinish) =
            some (projectDurationOf m2))) x = true := by
          apply decide_eq_true
          rw [hxget]
          simp only [Option.map]
          exact congrArg some h5
        obtain ⟨L1, L2, hrev2, hxL1⟩ :=
          succs_before_reverse tasks order hnd hO2 hO3 ⟨t, ht, htid, hvdep⟩
        obtain ⟨he1, _⟩ := decomp_unique (List.nodup_reverse.mpr hOnd) hrev2 hdecu
        have hfalse2 : decide ((mapGet m2 x).map (fun n => n.earlyFinish) =
            some (projectDurationOf m2)) = false := hu x (he1 ▸ hxL1)
        have hpredx2 : decide ((mapGet m2 x).map (fun n => n.earlyFinish) =
            some (projectDurationOf m2)) = true := hpredx
        rw [hpredx2] at hfalse2
        cases hfalse2
      obtain ⟨hvES, hvEF, hvLF, hvLS, hvslack, hvcrit⟩ := hrec vstar nstar hvget
      have hvpres : ∃ t ∈ tasks, t.id = vstar :=
        (hm2_isSome vstar).mp (by rw [hvget]; rfl)
      rw [buildSuccessorsMap_get_present tasks vstar hvpres] at hvLF
      simp only [Option.getD_some] at hvLF
      rw [hsempty] at hvLF
      simp only [List.isEmpty_nil, if_true] at hvLF
      have hvLFEF : nstar.lateFinish = nstar.earlyFinish := by
        rw [hvLF, hnstarEF]
      obtain ⟨chain, hcne, hclast, hcmem, hcchain, hchead, hcsum⟩ :=
        critical_chain tasks order m2 hnd hdang hOnd hO2 hO3 hm2_isSome horder_iff
          hF hrec hpos (order.indexOf vstar) vstar nstar rfl hvget hvLFEF
      have hnstar_out : nstar ∈ m2.map (fun p => p.2) :=
        List.mem_map.mpr ⟨(vstar, nstar), mapGet_eq_some_mem hvget, rfl⟩
      have hnstar_crit : nstar.isCritical = true := by
        have h0 : nstar.slack = 0 := by
          rw [hvslack, hvLS, hvLFEF, hvEF]
          ring
        rw [hvcrit, h0]
        decide
      refine ⟨m2.map (fun p => p.2), hcal, ⟨nstar, hnstar_out, hnstar_crit⟩,
        chain, hcne, ?_, ?_, ?_, ?_, ?_⟩
      · intro c hc
        obtain ⟨cn, hcg, hcc⟩ := hcmem c hc
        have hmem2 := mapGet_eq_some_mem hcg
        exact ⟨cn, List.mem_map.mpr ⟨(c, cn), hmem2, rfl⟩, hid (c, cn) hmem2, hcc⟩
      · apply List.Chain'.imp ?_ hcchain
        rintro a b ⟨bn, hbg, hab⟩
        have hmem2 := mapGet_eq_some_mem hbg
        exact ⟨bn, List.mem_map.mpr ⟨(b, bn), hmem2, rfl⟩, hid (b, bn) hmem2, hab⟩
      · intro h0 hh0
        obtain ⟨hn0, hg0, hdeps0⟩ := hchead h0 hh0
        have hmem2 := mapGet_eq_some_mem hg0
        exact ⟨hn0, List.mem_map.mpr ⟨(h0, hn0), hmem2, rfl⟩, hid _ hmem2, hdeps0⟩
      · intro z hz
        rw [hclast] at hz
        have hze : z = vstar := (Option.some.inj hz).symm
        subst hze
        refine ⟨nstar, hnstar_out, hid (z, nstar) (mapGet_eq_some_mem hvget), ?_⟩
        intro q2 hq2 hzq
        rcases List.mem_map.mp hq2 with ⟨q, hq, rfl⟩
        have hxs : q.2.id ∈ succContrib z tasks :=
          mem_succContrib.mpr ⟨q.2.toPertTask,
            m2_entry_task tasks m2 hkeys hm2_isSome hF q hq, rfl, hzq⟩
        rw [hsempty] at hxs
        cases hxs
      · rw [hrep, ← hnstarEF]
        exact hcsum

/-- **C6** counterexample to the claim as stated: `c6tasks` is non-empty and
acyclic, but task B's negative estimates give it a negative duration and no
output node is critical (every slack is 1). -/
theorem C6_critical_path_counterexample :
    c6tasks ≠ [] ∧ ¬ HasCycle c6tasks ∧
    (calculateCPM c6tasks).map (fun out => out.all (fun n => !n.isCritical)) =
      some true :=
  ⟨by decide, topologicalSort_some_not_hasCycle c6tasks ["A", "B"] (by decide),
    by decide⟩

/-- **C6** witness: the specification's four-task scenario, whose critical
chain is A → B → D with summed durations 2 + 10/3 + 31/6 = 21/2. -/
theorem C6_critical_path_witness :
    ∃ out, calculateCPM cpmScenario = some out ∧
      (∃ n ∈ out, n.isCritical = true) ∧
      ∃ chain : List String, chain ≠ [] ∧
        (∀ c ∈ chain, ∃ cn ∈ out, cn.id = c ∧ cn.isCritical = true) ∧
        List.Chain' (fun a b => ∃ bn ∈ out, bn.id = b ∧ a ∈ bn.dependencies) chain ∧
        (∀ h0, chain.head? = some h0 → ∃ hn ∈ out, hn.id = h0 ∧
          hn.dependencies = []) ∧
        (∀ z, chain.getLast? = some z → ∃ zn ∈ out, zn.id = z ∧
          ∀ w ∈ out, z ∉ w.dependencies) ∧
        (chain.map (fun c =>
          ((mapGet (out.map (fun x => (x.id, x))) c).map (fun n => n.duration)).getD 0)).sum
          = projectDurationOf (out.map (fun x => (x.id, x))) :=
  C6_critical_path cpmScenario (by decide) (by decide) (by decide)
    (topologicalSort_some_not_hasCycle cpmScenario ["A", "B", "C", "D"] (by decide))
    (by decide)
